import Mathlib

/-!
# FileServer: expiry policy, sweeper, listing, path check and configuration

A shallow embedding of `main.go` of the FileServer repository together with the
parts of the Go standard library its decisions go through (`time.Time`,
`time.Duration`, `path/filepath.Clean`, `path/filepath.Join`,
`path/filepath.Walk`), followed by the properties proved about them.
-/

namespace FileServer

/-! ## 64-bit machine integers -/

/-- Largest value of Go's `int64`. -/
def maxInt64 : Int := 9223372036854775807

/-- Smallest value of Go's `int64`. -/
def minInt64 : Int := -9223372036854775808

/-- Two's-complement wrap-around of a mathematical integer into `int64`. -/
def wrap64 (x : Int) : Int := (x + 9223372036854775808) % 18446744073709551616 - 9223372036854775808

/-! ## `time.Duration` and `time.Time` -/

/-! A `time.Duration` is a signed 64-bit count of nanoseconds; it is carried as an
integer and wrapped where Go's arithmetic wraps. -/

/-- Go's `time.Second` in nanoseconds. -/
def Second : Int := 1000000000

/-- Go's `time.Hour` in nanoseconds. -/
def Hour : Int := 3600000000000

/-- Go's `minDuration`, the value `Time.Sub` saturates to from below. -/
def minDuration : Int := minInt64

/-- Go's `maxDuration`, the value `Time.Sub` saturates to from above. -/
def maxDuration : Int := maxInt64

/-- Go's `unixToInternal`: seconds from January 1, year 1 to the Unix epoch. -/
def unixToInternal : Int := 62135596800

/-- The wall-clock reading of a Go `time.Time`: `sec` is what `t.sec()` returns
(an `int64` count of seconds since January 1, year 1) and `nsec` what `t.nsec()`
returns (in `[0, 999999999]`).  A file's `ModTime()` carries no monotonic clock
reading, so every `Sub` and `Before` the server evaluates takes the wall-clock
branch, which reads exactly these two fields. -/
structure Time where
  /-- Seconds since January 1, year 1. -/
  sec : Int
  /-- Nanoseconds within the second. -/
  nsec : Int
deriving DecidableEq, Repr

/-- A `Time` whose fields are in the ranges Go keeps them in. -/
def Time.WellFormed (t : Time) : Prop :=
  minInt64 ≤ t.sec ∧ t.sec ≤ maxInt64 ∧ 0 ≤ t.nsec ∧ t.nsec ≤ 999999999

instance (t : Time) : Decidable t.WellFormed :=
  inferInstanceAs (Decidable (minInt64 ≤ t.sec ∧ t.sec ≤ maxInt64 ∧ 0 ≤ t.nsec ∧
    t.nsec ≤ 999999999))

/-- Go's `(*Time).addSec` on a time without monotonic reading: add `d` seconds to
`ext`, saturating instead of overflowing. -/
def addSec (ext d : Int) : Int :=
  let sum := wrap64 (ext + d)
  if (decide (sum > ext)) = (decide (d > 0)) then sum
  else if d > 0 then 9223372036854775807
  else -9223372036854775807

/-- Go's `Time.Add`. -/
def Time.Add (t : Time) (d : Int) : Time :=
  let dsec := Int.tdiv d 1000000000
  let nsec := t.nsec + Int.tmod d 1000000000
  if nsec ≥ 1000000000 then
    { sec := addSec t.sec (dsec + 1), nsec := nsec - 1000000000 }
  else if nsec < 0 then
    { sec := addSec t.sec (dsec - 1), nsec := nsec + 1000000000 }
  else
    { sec := addSec t.sec dsec, nsec := nsec }

/-- Go's `Time.Before` (wall-clock branch). -/
def Time.Before (t u : Time) : Bool :=
  decide (t.sec < u.sec) || (decide (t.sec = u.sec) && decide (t.nsec < u.nsec))

/-- Go's `Time.Equal` (wall-clock branch). -/
def Time.Equal (t u : Time) : Bool :=
  decide (t.sec = u.sec) && decide (t.nsec = u.nsec)

/-- Go's `Time.Sub` (wall-clock branch): `t - u`, saturated to
`minDuration`/`maxDuration` when the difference does not fit a `Duration`. -/
def Time.Sub (t u : Time) : Int :=
  let d := wrap64 (wrap64 (wrap64 (t.sec - u.sec) * Second) + wrap64 (t.nsec - u.nsec))
  if (u.Add d).Equal t then d
  else if t.Before u then minDuration
  else maxDuration

/-- Go's `Time.Unix`: seconds since the Unix epoch. -/
def Time.Unix (t : Time) : Int := wrap64 (t.sec - unixToInternal)

/-- The mathematical instant of a `Time`, in nanoseconds since January 1, year 1. -/
def Time.nanos (t : Time) : Int := t.sec * 1000000000 + t.nsec

/-- The expression `time.Duration(expiryHours) * time.Hour` of `cleanupExpiredFiles`
and `serveDirectory`: a 64-bit multiplication. -/
def expiryDurationOf (expiryHours : Int) : Int := wrap64 (wrap64 expiryHours * Hour)

/-! ## The two expiry tests of `main.go` -/

/-- The test of `cleanupExpiredFiles` (line 490):
`now.Sub(info.ModTime()) > expiryDuration`. -/
def sweeperExpired (now modTime : Time) (expiryHours : Int) : Bool :=
  decide (now.Sub modTime > expiryDurationOf expiryHours)

/-- The test of `serveDirectory` (lines 291-294):
`info.ModTime().Add(expiryDuration).Before(now)`. -/
def listingExpired (now modTime : Time) (expiryHours : Int) : Bool :=
  (modTime.Add (expiryDurationOf expiryHours)).Before now

/-- The `remainingTime` cell `serveDirectory` computes for one entry (lines 282-300):
`dash` is the initial `"-"`, `expired` the `<span class="expired">` label and
`countdown expireUnix` the `<span class="countdown" data-expire-time=...>` label. -/
inductive RemainingTime where
  | dash
  | expired
  | countdown (expireUnix : Int)
deriving DecidableEq, Repr

/-- Lines 282-300 of `serveDirectory`: the `remainingTime` of an entry whose
`Info()` succeeded, from `entry.IsDir()` and `info.ModTime()`. -/
def remainingTime (now : Time) (expiryHours : Int) (isDir : Bool) (modTime : Time) :
    RemainingTime :=
  if !isDir then
    if expiryHours > 0 then
      let expireTime := modTime.Add (expiryDurationOf expiryHours)
      let expireUnix := expireTime.Unix
      if expireTime.Before now then RemainingTime.expired
      else RemainingTime.countdown expireUnix
    else RemainingTime.dash
  else RemainingTime.dash

/-! ## `path/filepath` on Unix

Go strings are modelled as lists of characters; `Clean` only ever tests a character
for being the separator `/` or a dot. -/

/-- The copy loop of `Clean`'s default case:
`for ; r < n && !os.IsPathSeparator(path[r]); r++ { out.append(path[r]) }`.
Returns the unread rest of the path and the buffer. -/
def copyElem : List Char → List Char → List Char × List Char
  | [], out => ([], out)
  | c :: rest, out => if c = '/' then (c :: rest, out) else copyElem rest (out ++ [c])

/-- The inner loop of `Clean`'s `..` case:
`for out.w > dotdot && !os.IsPathSeparator(out.index(out.w)) { out.w-- }`. -/
def backLoop (out : List Char) (dotdot : Nat) : Nat → Nat
  | 0 => 0
  | w + 1 =>
    if w + 1 > dotdot ∧ out.getD (w + 1) '/' ≠ '/' then backLoop out dotdot w else w + 1

/-- The backtracking of `Clean`'s `..` case: `out.w--` followed by the inner loop; the
buffer is cut at the new `out.w`. -/
def backtrack (out : List Char) (dotdot : Nat) : List Char :=
  out.take (backLoop out dotdot (out.length - 1))

/-- One iteration of the loop `for r < n { switch ... }` of `filepath.Clean`, at the
character `c = path[r]` followed by `rest = path[r+1:]`, with the write buffer `out`
(`out.w` is its length) and `dotdot`.  Returns the unread rest of the path, the
buffer and `dotdot` after the iteration. -/
def cleanStep (rooted : Bool) (c : Char) (rest out : List Char) (dotdot : Nat) :
    List Char × List Char × Nat :=
  if c = '/' then
    -- empty path element
    (rest, out, dotdot)
  else if c = '.' ∧ (rest = [] ∨ rest.head? = some '/') then
    -- . element
    (rest, out, dotdot)
  else if c = '.' ∧ rest.head? = some '.' ∧
      (rest.tail = [] ∨ rest.tail.head? = some '/') then
    -- .. element: remove to last separator
    if out.length > dotdot then
      -- can backtrack
      (rest.tail, backtrack out dotdot, dotdot)
    else if !rooted then
      -- cannot backtrack, but not rooted, so append .. element
      let out1 := if out.length > 0 then out ++ ['/'] else out
      let out2 := out1 ++ ['.', '.']
      (rest.tail, out2, out2.length)
    else
      (rest.tail, out, dotdot)
  else
    -- real path element: add slash if needed, copy element
    let out1 :=
      if (rooted ∧ out.length ≠ 1) ∨ (¬ rooted ∧ out.length ≠ 0) then out ++ ['/'] else out
    let r := copyElem (c :: rest) out1
    (r.1, r.2, dotdot)

/-- The loop `for r < n { ... }` of `filepath.Clean`: iterate `cleanStep` until the
path is read.  Each iteration consumes at least one character, so `fuel` equal to
the length of the path suffices. -/
def cleanLoop (rooted : Bool) : Nat → List Char → List Char → Nat → List Char
  | 0, _, out, _ => out
  | _ + 1, [], out, _ => out
  | fuel + 1, c :: rest, out, dotdot =>
    let s := cleanStep rooted c rest out dotdot
    cleanLoop rooted fuel s.1 s.2.1 s.2.2

/-- Go's `filepath.Clean` on Unix (no volume name, `FromSlash` is the identity). -/
def Clean (path : List Char) : List Char :=
  if path = [] then ['.']
  else
    let rooted : Bool := path.head? = some '/'
    let out :=
      if rooted then cleanLoop rooted path.length path.tail ['/'] 1
      else cleanLoop rooted path.length path [] 0
    if out.length = 0 then ['.'] else out

/-- Go's `strings.Join(elems, sep)`. -/
def stringsJoin : List (List Char) → List Char → List Char
  | [], _ => []
  | [e], _ => e
  | e :: es, sep => e ++ sep ++ stringsJoin es sep

/-- Go's `filepath.Join` on Unix: the elements from the first non-empty one on are
joined with `/` and cleaned; all-empty input gives the empty string. -/
def Join : List (List Char) → List Char
  | [] => []
  | e :: es => if e ≠ [] then Clean (stringsJoin (e :: es) ['/']) else Join es

/-- Go's `strings.Contains(s, substr)`. -/
def stringsContains : List Char → List Char → Bool
  | [], substr => substr.isEmpty
  | c :: s, substr => substr.isPrefixOf (c :: s) || stringsContains s substr

/-! ## The filesystem tree and `filepath.Walk` -/

/-- An entry of the directory tree: `dir` is an entry for which `info.IsDir()` holds,
`file` any other entry.  `lstatOk = false` simulates a failing metadata read of the
entry (`os.Lstat`, `entry.Info()`), `readOk = false` a directory whose names cannot
be read (`readDirNames`).  `children` is in the order `readDirNames` returns the
names. -/
inductive Node where
  | file (name : List Char) (modTime : Time) (lstatOk : Bool)
  | dir (name : List Char) (modTime : Time) (lstatOk : Bool) (readOk : Bool)
      (children : List Node)
deriving Repr

/-- Name of an entry. -/
def Node.name : Node → List Char
  | Node.file name _ _ => name
  | Node.dir name _ _ _ _ => name

/-- Whether the metadata read of the entry succeeds. -/
def Node.lstatOk : Node → Bool
  | Node.file _ _ ok => ok
  | Node.dir _ _ ok _ _ => ok

/-- What `info.IsDir()` answers for the entry. -/
def Node.isDir : Node → Bool
  | Node.file _ _ _ => false
  | Node.dir _ _ _ _ _ => true

/-- What `info.ModTime()` answers for the entry. -/
def Node.modTime : Node → Time
  | Node.file _ t _ => t
  | Node.dir _ t _ _ _ => t

/-- The variables the closure of `cleanupExpiredFiles` writes: `deletedCount`, and
the two log streams, `attempted` being every path handed to `os.Remove` and
`removed` every path logged as deleted. -/
structure SweepState where
  /-- The counter `deletedCount`. -/
  deletedCount : Nat
  /-- Paths `os.Remove` was called on, in call order. -/
  attempted : List (List Char)
  /-- Paths whose `os.Remove` succeeded, in call order. -/
  removed : List (List Char)
deriving DecidableEq, Repr

/-- The closure passed to `filepath.Walk` (lines 479-500).  `rm path` is the outcome
of `os.Remove(path)`.  Returns the new closure state and whether the entry at `path`
was removed from the filesystem.  The closure returns the error `nil` on every path,
so `Walk` never stops early. -/
def walkFn (now : Time) (expiryDuration : Int) (rm : List Char → Bool)
    (path : List Char) (isDir : Bool) (modTime : Time) (err : Bool) (st : SweepState) :
    SweepState × Bool :=
  if err then (st, false)
  else if isDir then (st, false)
  else if now.Sub modTime > expiryDuration then
    if rm path then
      ({ deletedCount := st.deletedCount + 1, attempted := st.attempted ++ [path],
         removed := st.removed ++ [path] }, true)
    else
      ({ st with attempted := st.attempted ++ [path] }, false)
  else (st, false)

mutual
/-- Go's `filepath.walk(path, info, walkFn)` with the closure of
`cleanupExpiredFiles`: the entry at `path` after the call (`none` when it was
removed) and the closure state.  Since the closure always returns `nil`, the
early returns of `walk` on a non-nil `walkFn` result never fire. -/
def walk (now : Time) (expiryDuration : Int) (rm : List Char → Bool)
    (path : List Char) : Node → SweepState → SweepState × Option Node
  | Node.file name modTime ok, st =>
    -- `if !info.IsDir() { return walkFn(path, info, nil) }`
    let r := walkFn now expiryDuration rm path false modTime false st
    (r.1, if r.2 then none else some (Node.file name modTime ok))
  | Node.dir name modTime ok readOk children, st =>
    -- `names, err := readDirNames(path); err1 := walkFn(path, info, err)`
    let r := walkFn now expiryDuration rm path true modTime (!readOk) st
    if !readOk then (r.1, some (Node.dir name modTime ok readOk children))
    else
      let rs := walkNames now expiryDuration rm path children r.1
      (rs.1, some (Node.dir name modTime ok readOk rs.2))
/-- The loop `for _, name := range names` of `filepath.walk`: `lstat` each name,
hand a failure to the closure and move on, otherwise recurse. -/
def walkNames (now : Time) (expiryDuration : Int) (rm : List Char → Bool)
    (path : List Char) : List Node → SweepState → SweepState × List Node
  | [], st => (st, [])
  | c :: cs, st =>
    let filename := Join [path, c.name]
    if !c.lstatOk then
      let r := walkFn now expiryDuration rm filename false c.modTime true st
      let rs := walkNames now expiryDuration rm path cs r.1
      (rs.1, c :: rs.2)
    else
      let r := walk now expiryDuration rm filename c st
      let rs := walkNames now expiryDuration rm path cs r.1
      (rs.1, match r.2 with
        | none => rs.2
        | some c1 => c1 :: rs.2)
end

/-- Go's `filepath.Walk(root, fn)` with the closure of `cleanupExpiredFiles`:
`os.Lstat(root)` first, the closure alone when that fails, `walk` otherwise. -/
def Walk (now : Time) (expiryDuration : Int) (rm : List Char → Bool)
    (root : List Char) (tree : Node) (st : SweepState) : SweepState × Option Node :=
  if !tree.lstatOk then
    ((walkFn now expiryDuration rm root false tree.modTime true st).1, some tree)
  else walk now expiryDuration rm root tree st

/-- The function `cleanupExpiredFiles(workDir, expiryHours)` (lines 470-509) run at
the instant `now` on the tree `tree` rooted at `workDir`, `rm` giving the outcome of
each `os.Remove`.  Returns the final closure state and the tree left behind. -/
def cleanupExpiredFiles (now : Time) (rm : List Char → Bool) (workDir : List Char)
    (expiryHours : Int) (tree : Node) : SweepState × Option Node :=
  if expiryHours ≤ 0 then
    ({ deletedCount := 0, attempted := [], removed := [] }, some tree)
  else
    let expiryDuration := expiryDurationOf expiryHours
    Walk now expiryDuration rm workDir tree
      { deletedCount := 0, attempted := [], removed := [] }

/-! ## `serveDirectory` and `serveFileBrowser` -/

/-- One table row `serveDirectory` writes for an entry (lines 307-315), without the
size cell. -/
structure Row where
  /-- The cell `name`. -/
  name : List Char
  /-- The link target `href`. -/
  href : List Char
  /-- The instant formatted into the cell `modTime`. -/
  modTime : Time
  /-- The cell `remainingTime`. -/
  remainingTime : RemainingTime
  /-- Whether the cell `fileType` says directory. -/
  isDir : Bool
deriving DecidableEq, Repr

/-- The loop `for _, entry := range entries` of `serveDirectory` (lines 272-316):
an entry whose `Info()` fails is skipped, every other entry gives one row. -/
def serveDirectory (now : Time) (requestPath : List Char) (expiryHours : Int) :
    List Node → List Row
  | [] => []
  | entry :: entries =>
    if !entry.lstatOk then serveDirectory now requestPath expiryHours entries
    else
      let href := Join [requestPath, entry.name]
      { name := entry.name
        href := if entry.isDir then href ++ ['/'] else href
        modTime := entry.modTime
        remainingTime := remainingTime now expiryHours entry.isDir entry.modTime
        isDir := entry.isDir } :: serveDirectory now requestPath expiryHours entries

/-- Outcome of `os.Stat(fullPath)` as `serveFileBrowser` distinguishes it. -/
inductive StatResult where
  | notExist
  | otherError
  | isDir
  | isFile
deriving DecidableEq, Repr

/-- Outcome of opening the named file inside `http.ServeFile` (`fs.Open(name)`
followed by `f.Stat()`), as `toHTTPError` distinguishes it. -/
inductive OpenResult where
  | ok
  | notExist
  | permission
  | otherError
deriving DecidableEq, Repr

/-- What `serveFileBrowser` answers: an HTTP error status, a redirect with its
status and `Location`, the listing of the directory `dirPath`, or an answer
`serveContent` produces from the opened file `fullPath`. -/
inductive Response where
  | error (status : Nat)
  | redirect (status : Nat) (location : List Char)
  | directory (dirPath requestPath : List Char)
  | file (fullPath : List Char)
deriving DecidableEq, Repr

/-- Go's `strings.FieldsFunc(s, f)`, `field` being the field read so far: `s` is
split at each run of characters satisfying `f`; empty fields are not returned. -/
def fieldsFunc (f : Char → Bool) : List Char → List Char → List (List Char)
  | [], field => if field = [] then [] else [field]
  | c :: s, field =>
    if f c then
      if field = [] then fieldsFunc f s [] else field :: fieldsFunc f s []
    else fieldsFunc f s (field ++ [c])

/-- Go's `isSlashRune` of `net/http`: the slash or the backslash (code 92). -/
def isSlashRune (r : Char) : Bool := r = '/' || r = Char.ofNat 92

/-- Go's `containsDotDot` of `net/http`: whether some `/`- or `\`-separated element
of `v` is `..`. -/
def containsDotDot (v : List Char) : Bool :=
  if !stringsContains v ['.', '.'] then false
  else (fieldsFunc isSlashRune v []).any (fun ent => decide (ent = ['.', '.']))

/-- Go's `toHTTPError` of `net/http`, on the failing outcomes of opening a file. -/
def toHTTPError : OpenResult → Nat
  | OpenResult.notExist => 404
  | OpenResult.permission => 403
  | _ => 500

/-- Go's `http.ServeFile(w, r, name)` as far as it decides what kind of answer is
given: 400 when `r.URL.Path` has a `..` element, a 301 redirect to `./` when
`r.URL.Path` ends in `/index.html`, the status of `toHTTPError` when the named file
does not open, and otherwise an answer `serveContent` produces from the named file.
`openFile name` is the outcome of opening the file, which `os.Stat` has just
reported as a regular file; a query string appended to the `Location` is left
out. -/
def ServeFile (openFile : List Char → OpenResult) (urlPath name : List Char) : Response :=
  if containsDotDot urlPath then Response.error 400
  else if "/index.html".toList.isSuffixOf urlPath then Response.redirect 301 "./".toList
  else
    match openFile name with
    | OpenResult.ok => Response.file name
    | e => Response.error (toHTTPError e)

/-- The function `serveFileBrowser` (lines 128-158) on the request path
`r.URL.Path`, `stat` being the outcome of `os.Stat` and `openFile` the outcome of
opening a file inside `http.ServeFile`. -/
def serveFileBrowser (stat : List Char → StatResult) (openFile : List Char → OpenResult)
    (urlPath workDir : List Char) : Response :=
  let requestPath := Clean urlPath
  if stringsContains requestPath ['.', '.'] then Response.error 400
  else
    let fullPath := Join [workDir, requestPath]
    match stat fullPath with
    | StatResult.notExist => Response.error 404
    | StatResult.otherError => Response.error 500
    | StatResult.isDir => Response.directory fullPath requestPath
    | StatResult.isFile => ServeFile openFile urlPath fullPath

/-! ## Configuration -/

/-- The struct `ConfigFile`. -/
structure ConfigFile where
  /-- Field `port`. -/
  Port : List Char
  /-- Field `workdir`. -/
  WorkDir : List Char
  /-- Field `uploaddir`. -/
  UploadDir : List Char
  /-- Field `file_expiry_hours`. -/
  FileExpiryHours : Int
deriving DecidableEq, Repr

/-- The struct `Config`. -/
structure Config where
  /-- Flag `-port`. -/
  Port : List Char
  /-- Flag `-workdir`. -/
  WorkDir : List Char
  /-- Flag `-uploaddir`. -/
  UploadDir : List Char
  /-- Flag `-config`. -/
  ConfigFile : List Char
  /-- Flag `-expiry`. -/
  FileExpiryHours : Int
deriving DecidableEq, Repr

/-- Lines 64-75 of `main`: the four conditional assignments from the loaded
config file, in source order. -/
def mergeConfigFile (config : Config) (cfg : ConfigFile) : Config :=
  let config := if cfg.Port ≠ [] then { config with Port := cfg.Port } else config
  let config := if cfg.WorkDir ≠ [] then { config with WorkDir := cfg.WorkDir } else config
  let config :=
    if cfg.UploadDir ≠ [] then { config with UploadDir := cfg.UploadDir } else config
  let config :=
    if cfg.FileExpiryHours > 0 then { config with FileExpiryHours := cfg.FileExpiryHours }
    else config
  config

/-- Lines 57-77 of `main`: `config` holds the parsed flags, `loadConfig` is the
outcome of reading and decoding the named file (`none` on error). -/
def applyConfigFile (config : Config) (loadConfig : List Char → Option ConfigFile) :
    Config :=
  if config.ConfigFile ≠ [] then
    match loadConfig config.ConfigFile with
    | none => config
    | some cfg => mergeConfigFile config cfg
  else config

/-! ## Specification-side vocabulary -/

/-- A wall-clock reading: well formed and strictly inside the two bounds
`±(2^63 - 1)` seconds at which `addSec` saturates. -/
def Time.IsClockReading (t : Time) : Prop :=
  t.WellFormed ∧ -maxInt64 < t.sec ∧ t.sec < maxInt64

instance (t : Time) : Decidable t.IsClockReading :=
  inferInstanceAs (Decidable (t.WellFormed ∧ -maxInt64 < t.sec ∧ t.sec < maxInt64))

/-- Whether `cleanupExpiredFiles` hands a visited regular file to `os.Remove`: the
guard of line 471 is passed and the test of line 490 holds (`cleanup_spec` below
shows that the walk hands exactly these files to `os.Remove`). -/
def sweeperJudgesExpired (now : Time) (expiryHours : Int) (modTime : Time) : Bool :=
  decide (expiryHours > 0) && sweeperExpired now modTime expiryHours

/-- An entry of the tree together with where it lies: `path` is the path
`filepath.Walk` builds for it and `reached` says that neither the entry nor one of
its ancestors fails, that is, its own metadata read succeeds and every ancestor
directory has readable metadata and readable names. -/
structure Located where
  /-- The path of the entry. -/
  path : List Char
  /-- Whether the entry is a directory. -/
  isDir : Bool
  /-- The modification time of the entry. -/
  modTime : Time
  /-- Whether no failure lies on the way to the entry. -/
  reached : Bool
deriving DecidableEq, Repr

mutual
/-- Every entry of the tree below and including `node`, in pre-order, with its path
and reachability; `healthy` says that no ancestor fails. -/
def Node.located (path : List Char) (healthy : Bool) : Node → List Located
  | Node.file _ modTime ok =>
    [{ path := path, isDir := false, modTime := modTime, reached := healthy && ok }]
  | Node.dir _ modTime ok readOk children =>
    { path := path, isDir := true, modTime := modTime, reached := healthy && ok } ::
      locatedNames path (healthy && ok && readOk) children
/-- The entries below the children of the directory at `path`. -/
def locatedNames (path : List Char) (healthy : Bool) : List Node → List Located
  | [] => []
  | c :: cs => c.located (Join [path, c.name]) healthy ++ locatedNames path healthy cs
end

/-- The entries of a tree that may have been removed altogether. -/
def locatedOpt (path : List Char) (healthy : Bool) : Option Node → List Located
  | none => []
  | some node => node.located path healthy

/-- The entries a sweep pass hands to `os.Remove`, as the specification describes
them: reached regular files judged expired. -/
def shouldAttempt (now : Time) (expiryHours : Int) (e : Located) : Bool :=
  e.reached && !e.isDir && sweeperJudgesExpired now expiryHours e.modTime

/-- The entries a sweep pass removes, as the specification describes them: reached
regular files judged expired whose delete succeeds. -/
def shouldRemove (now : Time) (rm : List Char → Bool) (expiryHours : Int) (e : Located) :
    Bool :=
  shouldAttempt now expiryHours e && rm e.path

/-- The test of the closure on a located entry, for a given `expiryDuration`. -/
def attemptAt (now : Time) (expiryDuration : Int) (e : Located) : Bool :=
  e.reached && !e.isDir && decide (now.Sub e.modTime > expiryDuration)

/-- The entries removed under a given `expiryDuration`. -/
def removeAt (now : Time) (rm : List Char → Bool) (expiryDuration : Int) (e : Located) :
    Bool :=
  attemptAt now expiryDuration e && rm e.path

/-- The closure state after the entries `es` have been dealt with as the
specification describes: every attempted path is logged, every removed path is
logged and counted. -/
def SweepState.extend (now : Time) (rm : List Char → Bool) (expiryDuration : Int)
    (st : SweepState) (es : List Located) : SweepState :=
  { deletedCount := st.deletedCount + (es.filter (removeAt now rm expiryDuration)).length
    attempted := st.attempted ++ (es.filter (attemptAt now expiryDuration)).map Located.path
    removed := st.removed ++ (es.filter (removeAt now rm expiryDuration)).map Located.path }

/-- The closure state `cleanupExpiredFiles` starts from. -/
def SweepState.zero : SweepState := { deletedCount := 0, attempted := [], removed := [] }

/-- A proper path element: non-empty, without separator, and neither `.` nor `..`. -/
def IsName (e : List Char) : Prop :=
  e ≠ [] ∧ '/' ∉ e ∧ e ≠ ['.'] ∧ e ≠ ['.', '.']

/-- The path reached from `dir` by descending through `names` one after the other. -/
def descend (dir : List Char) : List (List Char) → List Char
  | [] => dir
  | e :: es => descend (if dir = ['/'] then dir ++ e else dir ++ '/' :: e) es

/-- Lexical containment: `full` is `workDir` itself or is reached from it by
descending through proper path elements only. -/
def LexicallyWithin (workDir full : List Char) : Prop :=
  ∃ names : List (List Char), (∀ e ∈ names, IsName e) ∧ full = descend workDir names

/-! ## Arithmetic of the time model -/

theorem tdiv_tmod_spec (d : Int) :
    d = Int.tdiv d 1000000000 * 1000000000 + Int.tmod d 1000000000 ∧
    (0 ≤ d → 0 ≤ Int.tmod d 1000000000 ∧ Int.tmod d 1000000000 < 1000000000) ∧
    (d ≤ 0 → -1000000000 < Int.tmod d 1000000000 ∧ Int.tmod d 1000000000 ≤ 0) := by
  have hsplit := Int.tdiv_add_tmod' d 1000000000
  refine ⟨by omega, ?_, ?_⟩
  · intro hd
    have h1 := Int.tmod_eq_emod hd (by decide : (0 : Int) ≤ 1000000000)
    rw [h1]
    omega
  · intro hd
    have hq : Int.tdiv d 1000000000 = -((-d) / 1000000000) := by
      have h2 := Int.neg_tdiv (-d) 1000000000
      rw [Int.neg_neg] at h2
      rw [h2, Int.tdiv_eq_ediv (by omega) (by decide)]
    omega

theorem wrap64_range (x : Int) : minInt64 ≤ wrap64 x ∧ wrap64 x ≤ maxInt64 := by
  unfold wrap64 minInt64 maxInt64
  omega

theorem wrap64_of_range (x : Int) (h1 : minInt64 ≤ x) (h2 : x ≤ maxInt64) : wrap64 x = x := by
  unfold wrap64
  unfold minInt64 at h1
  unfold maxInt64 at h2
  omega

/-- What `addSec` computes: the exact sum when it fits, a saturated bound otherwise. -/
theorem addSec_spec (ext d : Int) (h1 : minInt64 ≤ ext) (h2 : ext ≤ maxInt64)
    (h3 : minInt64 ≤ d) (h4 : d ≤ maxInt64) :
    (minInt64 ≤ ext + d → ext + d ≤ maxInt64 → addSec ext d = ext + d) ∧
    (maxInt64 < ext + d → addSec ext d = maxInt64) ∧
    (ext + d < minInt64 → addSec ext d = -maxInt64) := by
  unfold minInt64 at h1 h3
  unfold maxInt64 at h2 h4
  unfold addSec wrap64 minInt64 maxInt64
  simp only [decide_eq_decide]
  refine ⟨?_, ?_, ?_⟩
  · intro h5 h6
    have hw : (ext + d + 9223372036854775808) % 18446744073709551616 - 9223372036854775808
        = ext + d := by omega
    rw [hw]
    split_ifs <;> omega
  · intro h5
    have hw : (ext + d + 9223372036854775808) % 18446744073709551616 - 9223372036854775808
        = ext + d - 18446744073709551616 := by omega
    rw [hw]
    split_ifs <;> omega
  · intro h5
    have hw : (ext + d + 9223372036854775808) % 18446744073709551616 - 9223372036854775808
        = ext + d + 18446744073709551616 := by omega
    rw [hw]
    split_ifs <;> omega

/-- What `Time.Add` computes: a whole number `k` of seconds is carried into `addSec`
and the nanosecond field stays normalised. -/
theorem Add_spec (u : Time) (d : Int) (hu : u.WellFormed)
    (hd1 : minInt64 ≤ d) (hd2 : d ≤ maxInt64) :
    ∃ k : Int, (u.Add d).sec = addSec u.sec k ∧ 0 ≤ (u.Add d).nsec ∧
      (u.Add d).nsec ≤ 999999999 ∧ k * 1000000000 + (u.Add d).nsec = u.nsec + d ∧
      minInt64 ≤ k ∧ k ≤ maxInt64 := by
  obtain ⟨hs, hpos, hneg⟩ := tdiv_tmod_spec d
  obtain ⟨-, -, hn1, hn2⟩ := hu
  unfold minInt64 at hd1 ⊢
  unfold maxInt64 at hd2 ⊢
  unfold Time.Add
  simp only
  split_ifs with h1 h2
  · exact ⟨_, rfl, by simp only; omega, by simp only; omega, by simp only; omega,
      by omega, by omega⟩
  · exact ⟨_, rfl, by simp only; omega, by simp only; omega, by simp only; omega,
      by omega, by omega⟩
  · exact ⟨_, rfl, by simp only; omega, by simp only; omega, by simp only; omega,
      by omega, by omega⟩

theorem Before_iff (t u : Time) (ht : 0 ≤ t.nsec ∧ t.nsec ≤ 999999999)
    (hu : 0 ≤ u.nsec ∧ u.nsec ≤ 999999999) :
    t.Before u = true ↔ t.nanos < u.nanos := by
  unfold Time.Before Time.nanos
  simp only [Bool.or_eq_true, Bool.and_eq_true, decide_eq_true_eq]
  omega

theorem Equal_iff (t u : Time) (ht : 0 ≤ t.nsec ∧ t.nsec ≤ 999999999)
    (hu : 0 ≤ u.nsec ∧ u.nsec ≤ 999999999) :
    t.Equal u = true ↔ t.nanos = u.nanos := by
  unfold Time.Equal Time.nanos
  simp only [Bool.and_eq_true, decide_eq_true_eq]
  omega

/-- The wrapped difference `Time.Sub` starts from is the true difference modulo `2^64`. -/
theorem Sub_raw (t u : Time) :
    wrap64 (wrap64 (wrap64 (t.sec - u.sec) * Second) + wrap64 (t.nsec - u.nsec))
      = wrap64 (t.nanos - u.nanos) := by
  unfold wrap64 Second Time.nanos
  omega

/-- The instant `Time.Add` returns: exact when the seconds fit, a saturated second
otherwise. -/
theorem Add_nanos (u : Time) (d : Int) (hu : u.WellFormed)
    (hd1 : minInt64 ≤ d) (hd2 : d ≤ maxInt64) :
    0 ≤ (u.Add d).nsec ∧ (u.Add d).nsec ≤ 999999999 ∧
    ((u.Add d).nanos = u.nanos + d ∧ minInt64 ≤ (u.Add d).sec ∧ (u.Add d).sec ≤ maxInt64 ∨
     (u.Add d).sec = maxInt64 ∧ maxInt64 * 1000000000 + 999999999 < u.nanos + d ∨
     (u.Add d).sec = -maxInt64 ∧ u.nanos + d < minInt64 * 1000000000) := by
  obtain ⟨k, hk, hn1, hn2, hsum, hk1, hk2⟩ := Add_spec u d hu hd1 hd2
  obtain ⟨hs1, hs2, -, -⟩ := hu
  obtain ⟨hfit, hover, hunder⟩ := addSec_spec u.sec k hs1 hs2 hk1 hk2
  refine ⟨hn1, hn2, ?_⟩
  unfold Time.nanos
  unfold minInt64 maxInt64 at *
  by_cases h1 : 9223372036854775807 < u.sec + k
  · right; left
    have := hover h1
    omega
  · by_cases h2 : u.sec + k < -9223372036854775808
    · right; right
      have := hunder h2
      omega
    · left
      have := hfit (by omega) (by omega)
      omega

/-- Go's `Time.Sub` is the true difference clamped to the range of `Duration`, for
every minuend that is not one of the two saturation bounds of `addSec`. -/
theorem Sub_clamp (t u : Time) (ht : t.WellFormed) (hu : u.WellFormed)
    (h1 : -maxInt64 < t.sec) (h2 : t.sec < maxInt64) :
    (minInt64 ≤ t.nanos - u.nanos → t.nanos - u.nanos ≤ maxInt64 →
        t.Sub u = t.nanos - u.nanos) ∧
    (maxInt64 < t.nanos - u.nanos → t.Sub u = maxDuration) ∧
    (t.nanos - u.nanos < minInt64 → t.Sub u = minDuration) := by
  have hraw := Sub_raw t u
  obtain ⟨hr1, hr2⟩ := wrap64_range (t.nanos - u.nanos)
  obtain ⟨ha1, ha2, hcases⟩ := Add_nanos u (wrap64 (t.nanos - u.nanos)) hu hr1 hr2
  have heq := Equal_iff (u.Add (wrap64 (t.nanos - u.nanos))) t ⟨ha1, ha2⟩ ⟨ht.2.2.1, ht.2.2.2⟩
  have hbef := Before_iff t u ⟨ht.2.2.1, ht.2.2.2⟩ ⟨hu.2.2.1, hu.2.2.2⟩
  unfold Time.Sub
  simp only [hraw]
  have hne : ∀ v : Time, (v.sec = maxInt64 ∨ v.sec = -maxInt64) → ¬ v.Equal t = true := by
    intro v hv hE
    unfold Time.Equal at hE
    simp only [Bool.and_eq_true, decide_eq_true_eq] at hE
    omega
  refine ⟨?_, ?_, ?_⟩
  · intro h3 h4
    have hw := wrap64_of_range _ h3 h4
    rw [hw] at hcases heq ⊢
    have hE : (u.Add (t.nanos - u.nanos)).Equal t = true := by
      rcases hcases with ⟨h, -, -⟩ | ⟨-, h⟩ | ⟨-, h⟩
      · exact heq.2 (by omega)
      · exfalso
        obtain ⟨-, hs, -, hn⟩ := ht
        unfold Time.nanos maxInt64 at *
        omega
      · exfalso
        obtain ⟨hs, -, hn, -⟩ := ht
        unfold Time.nanos minInt64 at *
        omega
    rw [if_pos hE]
  · intro h3
    have hE : ¬ (u.Add (wrap64 (t.nanos - u.nanos))).Equal t = true := by
      rcases hcases with ⟨h, -, -⟩ | ⟨h, -⟩ | ⟨h, -⟩
      · intro hE
        have := heq.1 hE
        unfold maxInt64 at *
        omega
      · exact hne _ (Or.inl h)
      · exact hne _ (Or.inr h)
    have hB : ¬ t.Before u = true := by
      rw [hbef]
      unfold maxInt64 at h3
      omega
    rw [if_neg hE, if_neg hB]
  · intro h3
    have hE : ¬ (u.Add (wrap64 (t.nanos - u.nanos))).Equal t = true := by
      rcases hcases with ⟨h, -, -⟩ | ⟨h, -⟩ | ⟨h, -⟩
      · intro hE
        have := heq.1 hE
        unfold minInt64 at *
        omega
      · exact hne _ (Or.inl h)
      · exact hne _ (Or.inr h)
    have hB : t.Before u = true := by
      rw [hbef]
      unfold minInt64 at h3
      omega
    rw [if_neg hE, if_pos hB]

/-! ## The expiry tests in terms of instants -/

theorem expiryDurationOf_range (h : Int) :
    minInt64 ≤ expiryDurationOf h ∧ expiryDurationOf h ≤ maxInt64 :=
  wrap64_range _

/-- The product `time.Duration(expiryHours) * time.Hour` is a multiple of `2^12`
modulo `2^64`, hence never the odd value `maxDuration`. -/
theorem expiryDurationOf_ne_max (h : Int) : expiryDurationOf h ≠ maxInt64 := by
  unfold expiryDurationOf wrap64 Hour maxInt64
  omega

/-- Up to 2562047 hours the product does not overflow. -/
theorem expiryDurationOf_exact (h : Int) (h1 : 0 < h) (h2 : h ≤ 2562047) :
    expiryDurationOf h = h * 3600000000000 := by
  unfold expiryDurationOf wrap64 Hour
  omega

theorem sweeperExpired_iff (now modTime : Time) (h : Int) (hnow : now.IsClockReading)
    (hmod : modTime.WellFormed) :
    sweeperExpired now modTime h = true ↔
      expiryDurationOf h < now.nanos - modTime.nanos := by
  obtain ⟨hwf, hlo, hhi⟩ := hnow
  obtain ⟨hfit, hover, hunder⟩ := Sub_clamp now modTime hwf hmod hlo hhi
  obtain ⟨hr1, hr2⟩ := expiryDurationOf_range h
  have hne := expiryDurationOf_ne_max h
  unfold sweeperExpired
  simp only [gt_iff_lt, decide_eq_true_eq]
  unfold maxDuration minDuration at *
  unfold maxInt64 minInt64 at *
  by_cases h1 : 9223372036854775807 < now.nanos - modTime.nanos
  · rw [hover h1]; omega
  · by_cases h2 : now.nanos - modTime.nanos < -9223372036854775808
    · rw [hunder h2]; omega
    · rw [hfit (by omega) (by omega)]

theorem listingExpired_iff (now modTime : Time) (h : Int) (hnow : now.IsClockReading)
    (hmod : modTime.WellFormed) :
    listingExpired now modTime h = true ↔
      expiryDurationOf h < now.nanos - modTime.nanos := by
  obtain ⟨hwf, hlo, hhi⟩ := hnow
  obtain ⟨hr1, hr2⟩ := expiryDurationOf_range h
  obtain ⟨ha1, ha2, hcases⟩ := Add_nanos modTime (expiryDurationOf h) hmod hr1 hr2
  unfold listingExpired
  rw [Before_iff _ _ ⟨ha1, ha2⟩ ⟨hwf.2.2.1, hwf.2.2.2⟩]
  obtain ⟨hs1, hs2, hn1, hn2⟩ := hwf
  rcases hcases with ⟨h1, -, -⟩ | ⟨h1, h2⟩ | ⟨h1, h2⟩
  · omega
  · unfold Time.nanos maxInt64 at *
    omega
  · unfold Time.nanos maxInt64 minInt64 at *
    omega

theorem remainingTime_expired_iff (now modTime : Time) (h : Int) :
    remainingTime now h false modTime = RemainingTime.expired ↔
      (0 < h ∧ listingExpired now modTime h = true) := by
  unfold remainingTime listingExpired
  by_cases hh : h > 0
  · by_cases hb : (modTime.Add (expiryDurationOf h)).Before now = true
    · simp [hh, hb]
    · simp [hh, hb]
  · simp [hh]

theorem sweeperJudgesExpired_iff (now modTime : Time) (h : Int)
    (hnow : now.IsClockReading) (hmod : modTime.WellFormed) :
    sweeperJudgesExpired now h modTime = true ↔
      (0 < h ∧ expiryDurationOf h < now.nanos - modTime.nanos) := by
  unfold sweeperJudgesExpired
  rw [Bool.and_eq_true, sweeperExpired_iff now modTime h hnow hmod]
  simp

theorem sweeper_listing_iff_aux (now modTime : Time) (h : Int)
    (hnow : now.IsClockReading) (hmod : modTime.WellFormed) :
    remainingTime now h false modTime = RemainingTime.expired ↔
      (0 < h ∧ expiryDurationOf h < now.nanos - modTime.nanos) := by
  rw [remainingTime_expired_iff, listingExpired_iff now modTime h hnow hmod]

/-! ## Claims on the expiry policy -/

/-- C5: evaluated at the same instant `now`, `cleanupExpiredFiles` decides to delete
a regular file (`now.Sub(modTime) > expiryDuration`, behind its guard
`expiryHours > 0`) if and only if `serveDirectory` labels that file as expired
(`modTime.Add(expiryDuration).Before(now)`, behind the same guard), for every
modification time, every number of hours and every clock reading `now`. -/
theorem sweeper_listing_agree (now modTime : Time) (expiryHours : Int)
    (hnow : now.IsClockReading) (hmod : modTime.WellFormed) :
    sweeperJudgesExpired now expiryHours modTime = true ↔
      remainingTime now expiryHours false modTime = RemainingTime.expired := by
  rw [sweeperJudgesExpired_iff now modTime expiryHours hnow hmod,
    remainingTime_expired_iff, listingExpired_iff now modTime expiryHours hnow hmod]

theorem sweeper_listing_agree_witness :
    (Time.mk 63835600400 1).IsClockReading ∧ (Time.mk 63835596800 0).WellFormed ∧
    (sweeperJudgesExpired (Time.mk 63835600400 1) 1 (Time.mk 63835596800 0) = true ↔
      remainingTime (Time.mk 63835600400 1) 1 false (Time.mk 63835596800 0)
        = RemainingTime.expired) :=
  ⟨by decide, by decide,
    sweeper_listing_agree (Time.mk 63835600400 1) (Time.mk 63835596800 0) 1
      (by decide) (by decide)⟩

/-- C1 (counterexample): a file whose age is exactly one hour under
`expiryHours = 1` is not judged expired: `cleanupExpiredFiles` calls `os.Remove` on
nothing and leaves the tree as it was, and `serveDirectory` writes a countdown. -/
theorem boundary_inclusive_counterexample :
    (Time.mk 63835600400 0).nanos - (Time.mk 63835596800 0).nanos = 1 * Hour ∧
    sweeperJudgesExpired (Time.mk 63835600400 0) 1 (Time.mk 63835596800 0) = false ∧
    cleanupExpiredFiles (Time.mk 63835600400 0) (fun _ => true) "/srv/files".toList 1
        (Node.dir [] (Time.mk 63835596800 0) true true
          [Node.file "a.txt".toList (Time.mk 63835596800 0) true])
      = ({ deletedCount := 0, attempted := [], removed := [] },
         some (Node.dir [] (Time.mk 63835596800 0) true true
          [Node.file "a.txt".toList (Time.mk 63835596800 0) true])) ∧
    (serveDirectory (Time.mk 63835600400 0) "/".toList 1
        [Node.file "a.txt".toList (Time.mk 63835596800 0) true]).map Row.remainingTime
      = [RemainingTime.countdown 1700003600] := by
  refine ⟨by decide, by decide, by rfl, by decide⟩

/-- C1 (amended): the boundary is exclusive.  For `0 < expiryHours ≤ 2562047` a
regular file is judged expired, by `cleanupExpiredFiles` and by `serveDirectory`
alike, exactly when its age exceeds `expiryHours` hours; at an age of exactly
`expiryHours` hours it is not handed to `os.Remove` and its label is a countdown. -/
theorem expiry_boundary_exclusive (now modTime : Time) (expiryHours : Int)
    (hnow : now.IsClockReading) (hmod : modTime.WellFormed)
    (h1 : 0 < expiryHours) (h2 : expiryHours ≤ 2562047) :
    (sweeperJudgesExpired now expiryHours modTime = true ↔
      expiryHours * Hour < now.nanos - modTime.nanos) ∧
    (remainingTime now expiryHours false modTime = RemainingTime.expired ↔
      expiryHours * Hour < now.nanos - modTime.nanos) ∧
    (now.nanos - modTime.nanos = expiryHours * Hour →
      sweeperJudgesExpired now expiryHours modTime = false ∧
      remainingTime now expiryHours false modTime
        = RemainingTime.countdown (modTime.Add (expiryDurationOf expiryHours)).Unix) := by
  have hs := sweeperJudgesExpired_iff now modTime expiryHours hnow hmod
  have hl := sweeper_listing_iff_aux now modTime expiryHours hnow hmod
  have he := expiryDurationOf_exact expiryHours h1 h2
  have hH : expiryHours * Hour = expiryHours * 3600000000000 := rfl
  rw [hH]
  refine ⟨?_, ?_, ?_⟩
  · rw [hs, he]; simp [h1]
  · rw [hl, he]; simp [h1]
  · intro hage
    have hns : ¬ sweeperJudgesExpired now expiryHours modTime = true := by
      rw [hs, he]; omega
    have hnl : ¬ remainingTime now expiryHours false modTime = RemainingTime.expired := by
      rw [hl, he]; omega
    refine ⟨by simpa using hns, ?_⟩
    unfold remainingTime at hnl ⊢
    simp only [Bool.not_false, if_true, h1, gt_iff_lt] at hnl ⊢
    split_ifs at hnl ⊢ with hb
    · exact absurd rfl hnl
    · rfl

theorem expiry_boundary_exclusive_witness :
    (Time.mk 63835600400 0).IsClockReading ∧ (Time.mk 63835596800 0).WellFormed ∧
    (0 : Int) < 1 ∧ (1 : Int) ≤ 2562047 ∧
    (sweeperJudgesExpired (Time.mk 63835600400 0) 1 (Time.mk 63835596800 0) = true ↔
      1 * Hour < (Time.mk 63835600400 0).nanos - (Time.mk 63835596800 0).nanos) :=
  ⟨by decide, by decide, by decide, by decide,
    (expiry_boundary_exclusive (Time.mk 63835600400 0) (Time.mk 63835596800 0) 1
      (by decide) (by decide) (by decide) (by decide)).1⟩

theorem remainingTime_disabled (now modTime : Time) (h : Int) (isDir : Bool)
    (hh : h ≤ 0) : remainingTime now h isDir modTime = RemainingTime.dash := by
  unfold remainingTime
  have : ¬ h > 0 := by omega
  simp [this]

theorem serveDirectory_disabled (now : Time) (requestPath : List Char) (h : Int)
    (hh : h ≤ 0) (entries : List Node) :
    ∀ row ∈ serveDirectory now requestPath h entries,
      row.remainingTime = RemainingTime.dash := by
  induction entries with
  | nil => intro row hrow; simp [serveDirectory] at hrow
  | cons e es ih =>
    intro row hrow
    unfold serveDirectory at hrow
    by_cases hok : e.lstatOk = true
    · simp only [hok, Bool.not_true, Bool.false_eq_true, if_false, List.mem_cons] at hrow
      rcases hrow with h1 | h1
      · rw [h1]
        exact remainingTime_disabled now e.modTime h e.isDir hh
      · exact ih row h1
    · rw [Bool.not_eq_true] at hok
      simp only [hok, Bool.not_false, if_true] at hrow
      exact ih row hrow

/-- C2: with `expiryHours ≤ 0` no file is ever judged expired, whatever its
modification time and whatever `now`: `cleanupExpiredFiles` calls `os.Remove` on
nothing, leaves the tree unchanged with `deletedCount = 0`, and no row of
`serveDirectory` carries the expired label. -/
theorem expiry_disabled (now : Time) (rm : List Char → Bool)
    (workDir requestPath : List Char) (expiryHours : Int) (tree : Node)
    (entries : List Node) (hh : expiryHours ≤ 0) :
    cleanupExpiredFiles now rm workDir expiryHours tree
      = ({ deletedCount := 0, attempted := [], removed := [] }, some tree) ∧
    (∀ row ∈ serveDirectory now requestPath expiryHours entries,
      row.remainingTime ≠ RemainingTime.expired) ∧
    (∀ modTime : Time, sweeperJudgesExpired now expiryHours modTime = false ∧
      remainingTime now expiryHours false modTime ≠ RemainingTime.expired) := by
  refine ⟨?_, ?_, ?_⟩
  · unfold cleanupExpiredFiles
    rw [if_pos hh]
  · intro row hrow
    rw [serveDirectory_disabled now requestPath expiryHours hh entries row hrow]
    exact fun h => RemainingTime.noConfusion h
  · intro modTime
    constructor
    · unfold sweeperJudgesExpired
      have : ¬ expiryHours > 0 := by omega
      simp [this]
    · rw [remainingTime_disabled now modTime expiryHours false hh]
      exact fun h => RemainingTime.noConfusion h

theorem expiry_disabled_witness :
    (0 : Int) ≤ 0 ∧
    cleanupExpiredFiles (Time.mk 63835600400 0) (fun _ => true) "/srv/files".toList 0
        (Node.dir [] (Time.mk 63835596800 0) true true
          [Node.file "old.txt".toList (Time.mk 60235600400 0) true])
      = ({ deletedCount := 0, attempted := [], removed := [] },
         some (Node.dir [] (Time.mk 63835596800 0) true true
          [Node.file "old.txt".toList (Time.mk 60235600400 0) true])) :=
  ⟨by decide,
    (expiry_disabled (Time.mk 63835600400 0) (fun _ => true) "/srv/files".toList
      "/".toList 0 (Node.dir [] (Time.mk 63835596800 0) true true
          [Node.file "old.txt".toList (Time.mk 60235600400 0) true]) [] (by decide)).1⟩

/-- C6 (failing input): with `expiryHours = 2562048` the product
`time.Duration(expiryHours) * time.Hour` wraps to a negative duration, and a file
modified at the very instant `now` is judged expired: `cleanupExpiredFiles` removes
it and `serveDirectory` labels it expired. -/
theorem overflow_judges_fresh_file_expired :
    expiryDurationOf 2562048 = -9223371273709551616 ∧
    sweeperJudgesExpired (Time.mk 63835600400 0) 2562048 (Time.mk 63835600400 0) = true ∧
    cleanupExpiredFiles (Time.mk 63835600400 0) (fun _ => true) "/srv/files".toList 2562048
        (Node.dir [] (Time.mk 63835596800 0) true true
          [Node.file "new.txt".toList (Time.mk 63835600400 0) true])
      = ({ deletedCount := 1, attempted := ["/srv/files/new.txt".toList],
           removed := ["/srv/files/new.txt".toList] },
         some (Node.dir [] (Time.mk 63835596800 0) true true [])) ∧
    (serveDirectory (Time.mk 63835600400 0) "/".toList 2562048
        [Node.file "new.txt".toList (Time.mk 63835600400 0) true]).map Row.remainingTime
      = [RemainingTime.expired] := by
  refine ⟨by decide, by decide, by rfl, by decide⟩

/-- Within the range where the product does not overflow the verdict is sound: a
file judged expired is older than `expiryHours` hours, so a file modified at or
after `now` is never judged expired. -/
theorem verdict_sound_in_range (now modTime : Time) (expiryHours : Int)
    (hnow : now.IsClockReading) (hmod : modTime.WellFormed)
    (h1 : 0 < expiryHours) (h2 : expiryHours ≤ 2562047)
    (hexp : sweeperJudgesExpired now expiryHours modTime = true ∨
      remainingTime now expiryHours false modTime = RemainingTime.expired) :
    expiryHours * Hour ≤ now.nanos - modTime.nanos ∧ modTime.nanos < now.nanos := by
  have hs := sweeperJudgesExpired_iff now modTime expiryHours hnow hmod
  have hl := sweeper_listing_iff_aux now modTime expiryHours hnow hmod
  have he := expiryDurationOf_exact expiryHours h1 h2
  have hH : expiryHours * Hour = expiryHours * 3600000000000 := rfl
  rw [hH]
  rcases hexp with h | h
  · have := (hs.1 h).2
    omega
  · have := (hl.1 h).2
    omega

/-! ## The sweep as a filter over the located entries -/

mutual
theorem located_unhealthy : ∀ (node : Node) (path : List Char),
    ∀ e ∈ node.located path false, e.reached = false
  | Node.file _ _ _, path => by
    intro e he
    simp only [Node.located, List.mem_singleton] at he
    rw [he]; rfl
  | Node.dir _ _ _ _ children, path => by
    intro e he
    simp only [Node.located, List.mem_cons] at he
    rcases he with he | he
    · rw [he]; rfl
    · exact locatedNames_unhealthy children path e he
theorem locatedNames_unhealthy : ∀ (cs : List Node) (path : List Char),
    ∀ e ∈ locatedNames path false cs, e.reached = false
  | [], path => by
    intro e he
    simp [locatedNames] at he
  | c :: cs, path => by
    intro e he
    simp only [locatedNames, List.mem_append] at he
    rcases he with he | he
    · exact located_unhealthy c _ e he
    · exact locatedNames_unhealthy cs path e he
end

theorem located_failing (node : Node) (path : List Char) (hok : node.lstatOk = false) :
    ∀ e ∈ node.located path true, e.reached = false := by
  cases node with
  | file name modTime ok =>
    intro e he
    simp only [Node.lstatOk] at hok
    simp only [Node.located, List.mem_singleton] at he
    rw [he, hok]; rfl
  | dir name modTime ok readOk children =>
    intro e he
    simp only [Node.lstatOk] at hok
    simp only [Node.located, List.mem_cons, hok] at he
    rcases he with he | he
    · rw [he]; rfl
    · exact locatedNames_unhealthy children path e he

theorem attemptAt_unreached (now : Time) (d : Int) (e : Located) (h : e.reached = false) :
    attemptAt now d e = false := by
  unfold attemptAt; rw [h]; rfl

theorem removeAt_unreached (now : Time) (rm : List Char → Bool) (d : Int) (e : Located)
    (h : e.reached = false) : removeAt now rm d e = false := by
  unfold removeAt; rw [attemptAt_unreached now d e h]; rfl

theorem filter_none {α : Type} (p : α → Bool) (l : List α) (h : ∀ a ∈ l, p a = false) :
    l.filter p = [] := by
  rw [List.filter_eq_nil_iff]
  intro a ha
  rw [h a ha]
  exact Bool.false_ne_true

theorem filter_all {α : Type} (p : α → Bool) (l : List α) (h : ∀ a ∈ l, p a = false) :
    l.filter (fun a => !p a) = l := by
  rw [List.filter_eq_self]
  intro a ha
  rw [h a ha]; rfl

theorem extend_none (now : Time) (rm : List Char → Bool) (d : Int) (st : SweepState)
    (es : List Located) (h : ∀ e ∈ es, attemptAt now d e = false) :
    st.extend now rm d es = st := by
  have hr : ∀ e ∈ es, removeAt now rm d e = false := by
    intro e he
    unfold removeAt
    rw [h e he]; rfl
  unfold SweepState.extend
  rw [filter_none _ es h, filter_none _ es hr]
  simp

theorem extend_append (now : Time) (rm : List Char → Bool) (d : Int) (st : SweepState)
    (es fs : List Located) :
    st.extend now rm d (es ++ fs) = (st.extend now rm d es).extend now rm d fs := by
  unfold SweepState.extend
  simp only [List.filter_append, List.map_append, List.length_append, List.append_assoc,
    Nat.add_assoc]

theorem walkFn_err (now : Time) (d : Int) (rm : List Char → Bool) (path : List Char)
    (isDir : Bool) (modTime : Time) (st : SweepState) :
    walkFn now d rm path isDir modTime true st = (st, false) := by
  simp [walkFn]

theorem walkFn_dir (now : Time) (d : Int) (rm : List Char → Bool) (path : List Char)
    (modTime : Time) (err : Bool) (st : SweepState) :
    walkFn now d rm path true modTime err st = (st, false) := by
  cases err <;> simp [walkFn]

theorem walkFn_file (now : Time) (d : Int) (rm : List Char → Bool) (path : List Char)
    (modTime : Time) (st : SweepState) :
    walkFn now d rm path false modTime false st
      = (st.extend now rm d
          [{ path := path, isDir := false, modTime := modTime, reached := true }],
         removeAt now rm d
          { path := path, isDir := false, modTime := modTime, reached := true }) := by
  unfold walkFn SweepState.extend removeAt attemptAt
  by_cases h1 : now.Sub modTime > d
  · by_cases h2 : rm path = true
    · simp [h1, h2]
    · simp [h1, h2]
  · simp [h1]

mutual
theorem walk_spec (now : Time) (d : Int) (rm : List Char → Bool) :
    ∀ (node : Node) (path : List Char) (st : SweepState), node.lstatOk = true →
      (walk now d rm path node st).1 = st.extend now rm d (node.located path true) ∧
      locatedOpt path true (walk now d rm path node st).2
        = (node.located path true).filter (fun e => !removeAt now rm d e) ∧
      (∀ c1, (walk now d rm path node st).2 = some c1 → c1.name = node.name)
  | Node.file name modTime ok, path, st, hok => by
    simp only [Node.lstatOk] at hok
    subst hok
    simp only [walk, walkFn_file, Node.located, Bool.and_self]
    refine ⟨trivial, ?_, ?_⟩
    · by_cases hr : removeAt now rm d
          { path := path, isDir := false, modTime := modTime, reached := true } = true
      · simp [hr, locatedOpt]
      · simp [hr, locatedOpt, Node.located]
    · intro c1 hc1
      split_ifs at hc1
      cases hc1
      rfl
  | Node.dir name modTime ok readOk children, path, st, hok => by
    simp only [Node.lstatOk] at hok
    subst hok
    have hhead : removeAt now rm d
        { path := path, isDir := true, modTime := modTime, reached := true } = false := by
      simp [removeAt, attemptAt]
    have hheadA : attemptAt now d
        { path := path, isDir := true, modTime := modTime, reached := true } = false := by
      simp [attemptAt]
    cases readOk with
    | false =>
      have hkids := locatedNames_unhealthy children path
      simp only [walk, walkFn_dir, Node.located, Bool.and_self, Bool.and_false, Bool.not_false,
        if_true, locatedOpt]
      refine ⟨?_, ?_, ?_⟩
      · symm
        apply extend_none
        intro e he
        rcases List.mem_cons.1 he with he | he
        · rw [he]; exact hheadA
        · exact attemptAt_unreached now d e (hkids e he)
      · symm
        apply filter_all
        intro e he
        rcases List.mem_cons.1 he with he | he
        · rw [he]; exact hhead
        · exact removeAt_unreached now rm d e (hkids e he)
      · intro c1 hc1
        cases hc1
        rfl
    | true =>
      obtain ⟨h1, h2⟩ := walkNames_spec now d rm children path st
      simp only [walk, walkFn_dir, Node.located, Bool.and_self, Bool.not_true,
        Bool.false_eq_true, if_false, locatedOpt]
      refine ⟨?_, ?_, ?_⟩
      · rw [h1]
        unfold SweepState.extend
        simp [List.filter_cons, hhead, hheadA]
      · rw [h2]
        simp [List.filter_cons, hhead]
      · intro c1 hc1
        cases hc1
        rfl
theorem walkNames_spec (now : Time) (d : Int) (rm : List Char → Bool) :
    ∀ (cs : List Node) (path : List Char) (st : SweepState),
      (walkNames now d rm path cs st).1 = st.extend now rm d (locatedNames path true cs) ∧
      locatedNames path true (walkNames now d rm path cs st).2
        = (locatedNames path true cs).filter (fun e => !removeAt now rm d e)
  | [], path, st => by
    simp [walkNames, locatedNames, SweepState.extend]
  | c :: cs, path, st => by
    cases hok : c.lstatOk with
    | false =>
      have hc := located_failing c (Join [path, c.name]) hok
      obtain ⟨h1, h2⟩ := walkNames_spec now d rm cs path st
      simp only [walkNames, hok, Bool.not_false, if_true, walkFn_err, locatedNames]
      refine ⟨?_, ?_⟩
      · rw [h1, extend_append,
          extend_none now rm d st _ (fun e he => attemptAt_unreached now d e (hc e he))]
      · rw [h2, List.filter_append,
          filter_all _ _ (fun e he => removeAt_unreached now rm d e (hc e he))]
    | true =>
      obtain ⟨w1, w2, w3⟩ := walk_spec now d rm c (Join [path, c.name]) st hok
      obtain ⟨h1, h2⟩ := walkNames_spec now d rm cs path
        (walk now d rm (Join [path, c.name]) c st).1
      simp only [walkNames, hok, Bool.not_true, Bool.false_eq_true, if_false, locatedNames]
      refine ⟨?_, ?_⟩
      · rw [h1, w1, extend_append]
      · rw [List.filter_append, ← w2, ← h2]
        cases hres : (walk now d rm (Join [path, c.name]) c st).2 with
        | none => simp [locatedOpt]
        | some c1 =>
          have hname := w3 c1 hres
          simp only [locatedOpt, locatedNames, hname]
end

mutual
theorem walk_unchanged (now : Time) (d : Int) (rm : List Char → Bool) :
    ∀ (node : Node) (path : List Char) (st : SweepState), node.lstatOk = true →
      (∀ e ∈ node.located path true, attemptAt now d e = false) →
      walk now d rm path node st = (st, some node)
  | Node.file name modTime ok, path, st, hok, hall => by
    simp only [Node.lstatOk] at hok
    subst hok
    have he := hall { path := path, isDir := false, modTime := modTime, reached := true }
      (by simp [Node.located])
    have hr : removeAt now rm d
        { path := path, isDir := false, modTime := modTime, reached := true } = false := by
      unfold removeAt; rw [he]; rfl
    simp only [walk, walkFn_file, hr, Bool.false_eq_true, if_false]
    rw [extend_none now rm d st _ (by
      intro e hmem
      rw [List.mem_singleton.1 hmem]; exact he)]
  | Node.dir name modTime ok readOk children, path, st, hok, hall => by
    simp only [Node.lstatOk] at hok
    subst hok
    cases readOk with
    | false => simp only [walk, walkFn_dir, Bool.not_false, if_true]
    | true =>
      have hkids : ∀ e ∈ locatedNames path true children, attemptAt now d e = false := by
        intro e he
        apply hall
        simp only [Node.located, Bool.and_self, List.mem_cons]
        exact Or.inr he
      have h := walkNames_unchanged now d rm children path st hkids
      simp only [walk, walkFn_dir, Bool.not_true, Bool.false_eq_true, if_false, h]
theorem walkNames_unchanged (now : Time) (d : Int) (rm : List Char → Bool) :
    ∀ (cs : List Node) (path : List Char) (st : SweepState),
      (∀ e ∈ locatedNames path true cs, attemptAt now d e = false) →
      walkNames now d rm path cs st = (st, cs)
  | [], path, st, _ => by
    simp [walkNames]
  | c :: cs, path, st, hall => by
    have hrest : ∀ e ∈ locatedNames path true cs, attemptAt now d e = false := by
      intro e he
      apply hall
      simp only [locatedNames, List.mem_append]
      exact Or.inr he
    have h := walkNames_unchanged now d rm cs path st hrest
    cases hok : c.lstatOk with
    | false =>
      simp only [walkNames, hok, Bool.not_false, if_true, walkFn_err, h]
    | true =>
      have hc : ∀ e ∈ c.located (Join [path, c.name]) true, attemptAt now d e = false := by
        intro e he
        apply hall
        simp only [locatedNames, List.mem_append]
        exact Or.inl he
      have hw := walk_unchanged now d rm c (Join [path, c.name]) st hok hc
      simp only [walkNames, hok, Bool.not_true, Bool.false_eq_true, if_false, hw, h]
end

theorem shouldAttempt_eq (now : Time) (h : Int) (hh : 0 < h) (e : Located) :
    shouldAttempt now h e = attemptAt now (expiryDurationOf h) e := by
  unfold shouldAttempt attemptAt sweeperJudgesExpired sweeperExpired
  simp [hh]

theorem shouldAttempt_disabled (now : Time) (h : Int) (hh : h ≤ 0) (e : Located) :
    shouldAttempt now h e = false := by
  unfold shouldAttempt sweeperJudgesExpired
  have : ¬ h > 0 := by omega
  simp [this]

theorem shouldRemove_eq (now : Time) (rm : List Char → Bool) (h : Int) (hh : 0 < h)
    (e : Located) : shouldRemove now rm h e = removeAt now rm (expiryDurationOf h) e := by
  unfold shouldRemove removeAt
  rw [shouldAttempt_eq now h hh]

/-- The sweep as the specification describes it: the closure state is the initial
one extended by the located entries of the tree, and the entries left are those not
removed. -/
theorem cleanup_spec (now : Time) (rm : List Char → Bool) (workDir : List Char) (h : Int)
    (tree : Node) :
    (cleanupExpiredFiles now rm workDir h tree).1.attempted
      = ((tree.located workDir true).filter (shouldAttempt now h)).map Located.path ∧
    (cleanupExpiredFiles now rm workDir h tree).1.removed
      = ((tree.located workDir true).filter (shouldRemove now rm h)).map Located.path ∧
    (cleanupExpiredFiles now rm workDir h tree).1.deletedCount
      = ((tree.located workDir true).filter (shouldRemove now rm h)).length ∧
    locatedOpt workDir true (cleanupExpiredFiles now rm workDir h tree).2
      = (tree.located workDir true).filter (fun e => !shouldRemove now rm h e) := by
  by_cases hh : h ≤ 0
  · have ha : ∀ e ∈ tree.located workDir true, shouldAttempt now h e = false :=
      fun e _ => shouldAttempt_disabled now h hh e
    have hr : ∀ e ∈ tree.located workDir true, shouldRemove now rm h e = false := by
      intro e he
      unfold shouldRemove
      rw [ha e he]; rfl
    unfold cleanupExpiredFiles
    rw [if_pos hh, filter_none _ _ ha, filter_none _ _ hr, filter_all _ _ hr]
    simp [locatedOpt]
  · have hpos : 0 < h := by omega
    have e1 : shouldAttempt now h = attemptAt now (expiryDurationOf h) :=
      funext (shouldAttempt_eq now h hpos)
    have e2 : shouldRemove now rm h = removeAt now rm (expiryDurationOf h) :=
      funext (shouldRemove_eq now rm h hpos)
    rw [e1, e2]
    unfold cleanupExpiredFiles Walk
    rw [if_neg hh]
    cases hok : tree.lstatOk with
    | false =>
      have hc := located_failing tree workDir hok
      have ha : ∀ e ∈ tree.located workDir true,
          attemptAt now (expiryDurationOf h) e = false :=
        fun e he => attemptAt_unreached now _ e (hc e he)
      have hr : ∀ e ∈ tree.located workDir true,
          removeAt now rm (expiryDurationOf h) e = false :=
        fun e he => removeAt_unreached now rm _ e (hc e he)
      rw [filter_none _ _ ha, filter_none _ _ hr, filter_all _ _ hr]
      simp [walkFn_err, locatedOpt]
    | true =>
      obtain ⟨w1, w2, -⟩ := walk_spec now (expiryDurationOf h) rm tree workDir
        { deletedCount := 0, attempted := [], removed := [] } hok
      simp only [Bool.not_true, Bool.false_eq_true, if_false]
      rw [w1, w2]
      simp [SweepState.extend]

theorem cleanup_unchanged (now : Time) (rm : List Char → Bool) (workDir : List Char)
    (h : Int) (tree : Node)
    (hall : ∀ e ∈ tree.located workDir true, shouldAttempt now h e = false) :
    cleanupExpiredFiles now rm workDir h tree = (SweepState.zero, some tree) := by
  unfold cleanupExpiredFiles Walk SweepState.zero
  by_cases hh : h ≤ 0
  · rw [if_pos hh]
  · rw [if_neg hh]
    cases hok : tree.lstatOk with
    | false => simp [walkFn_err]
    | true =>
      simp only [Bool.not_true, Bool.false_eq_true, if_false]
      apply walk_unchanged now _ rm tree workDir _ hok
      intro e he
      rw [← shouldAttempt_eq now h (by omega)]
      exact hall e he

/-! ## Claims on the sweeper -/

/-- C7: for every tree, every `expiryHours` and every outcome `rm` of the
individual `os.Remove` calls, the paths one `cleanupExpiredFiles` pass removes are
exactly the reached regular files judged expired whose delete succeeded;
`deletedCount` is their number; the entries left are all the others, so no
directory is removed (even an empty, old one) and a file whose delete fails stays
and is not counted.  One file aged two hours under a one hour expiry is removed
with `deletedCount = 1`. -/
theorem sweep_postcondition (now : Time) (rm : List Char → Bool) (workDir : List Char)
    (expiryHours : Int) (tree : Node) :
    (cleanupExpiredFiles now rm workDir expiryHours tree).1.removed
      = ((tree.located workDir true).filter (fun e =>
          e.reached && !e.isDir && sweeperJudgesExpired now expiryHours e.modTime
            && rm e.path)).map Located.path ∧
    (cleanupExpiredFiles now rm workDir expiryHours tree).1.deletedCount
      = (cleanupExpiredFiles now rm workDir expiryHours tree).1.removed.length ∧
    locatedOpt workDir true (cleanupExpiredFiles now rm workDir expiryHours tree).2
      = (tree.located workDir true).filter (fun e =>
          !(e.reached && !e.isDir && sweeperJudgesExpired now expiryHours e.modTime
            && rm e.path)) ∧
    (∀ e ∈ tree.located workDir true, e.isDir = true →
      e ∈ locatedOpt workDir true (cleanupExpiredFiles now rm workDir expiryHours tree).2) ∧
    (∀ e ∈ tree.located workDir true, rm e.path = false →
      e ∈ locatedOpt workDir true (cleanupExpiredFiles now rm workDir expiryHours tree).2 ∧
      e.path ∉ (cleanupExpiredFiles now rm workDir expiryHours tree).1.removed) ∧
    cleanupExpiredFiles (Time.mk 63835600400 0) (fun _ => true) "/srv/files".toList 1
        (Node.dir [] (Time.mk 63835000000 0) true true
          [Node.file "a.txt".toList (Time.mk 63835593200 0) true,
           Node.dir "old".toList (Time.mk 63000000000 0) true true []])
      = ({ deletedCount := 1, attempted := ["/srv/files/a.txt".toList],
           removed := ["/srv/files/a.txt".toList] },
         some (Node.dir [] (Time.mk 63835000000 0) true true
          [Node.dir "old".toList (Time.mk 63000000000 0) true true []])) := by
  obtain ⟨-, hrem, hcnt, hloc⟩ := cleanup_spec now rm workDir expiryHours tree
  have hfun : (fun e : Located =>
      e.reached && !e.isDir && sweeperJudgesExpired now expiryHours e.modTime && rm e.path)
      = shouldRemove now rm expiryHours := by
    funext e
    unfold shouldRemove shouldAttempt
    rfl
  rw [hfun]
  refine ⟨hrem, ?_, hloc, ?_, ?_, by rfl⟩
  · rw [hcnt, hrem, List.length_map]
  · intro e he hdir
    rw [hloc, List.mem_filter]
    refine ⟨he, ?_⟩
    simp [shouldRemove, shouldAttempt, hdir]
  · intro e he hrm
    constructor
    · rw [hloc, List.mem_filter]
      refine ⟨he, ?_⟩
      simp [shouldRemove, hrm]
    · rw [hrem, List.mem_map]
      rintro ⟨f, hf, hpath⟩
      have hf2 := (List.mem_filter.1 hf).2
      unfold shouldRemove at hf2
      rw [Bool.and_eq_true, hpath, hrm] at hf2
      exact Bool.false_ne_true hf2.2

/-- C8: in a filesystem where every `os.Remove` of the first pass succeeds, a
second `cleanupExpiredFiles` pass at the same instant on the tree the first pass
left calls `os.Remove` on nothing, deletes zero files and leaves that tree exactly
as it is, whatever its own deletes would answer; when `workDir` is a directory the
first pass does leave a tree. -/
theorem sweep_idempotent (now : Time) (rm1 rm2 : List Char → Bool) (workDir : List Char)
    (expiryHours : Int) (tree : Node) (hrm : ∀ p, rm1 p = true) :
    (tree.isDir = true →
      ∃ t1, (cleanupExpiredFiles now rm1 workDir expiryHours tree).2 = some t1) ∧
    (∀ t1, (cleanupExpiredFiles now rm1 workDir expiryHours tree).2 = some t1 →
      cleanupExpiredFiles now rm2 workDir expiryHours t1
        = ({ deletedCount := 0, attempted := [], removed := [] }, some t1)) := by
  constructor
  · intro hdir
    cases tree with
    | file name modTime ok => simp [Node.isDir] at hdir
    | dir name modTime ok readOk children =>
      unfold cleanupExpiredFiles Walk
      by_cases hh : expiryHours ≤ 0
      · rw [if_pos hh]; exact ⟨_, rfl⟩
      · rw [if_neg hh]
        cases ok <;> cases readOk <;> simp [Node.lstatOk, walk]
  · intro t1 ht1
    obtain ⟨-, -, -, hloc⟩ := cleanup_spec now rm1 workDir expiryHours tree
    rw [ht1] at hloc
    simp only [locatedOpt] at hloc
    apply cleanup_unchanged
    intro e he
    rw [hloc] at he
    have h2 := (List.mem_filter.1 he).2
    unfold shouldRemove at h2
    rw [hrm e.path, Bool.and_true] at h2
    simpa using h2

theorem sweep_idempotent_witness :
    (∀ p : List Char, (fun _ : List Char => true) p = true) ∧
    cleanupExpiredFiles (Time.mk 63835600400 0) (fun _ => false) "/srv/files".toList 1
        (Node.dir [] (Time.mk 63835000000 0) true true
          [Node.dir "old".toList (Time.mk 63000000000 0) true true []])
      = ({ deletedCount := 0, attempted := [], removed := [] },
         some (Node.dir [] (Time.mk 63835000000 0) true true
          [Node.dir "old".toList (Time.mk 63000000000 0) true true []])) :=
  ⟨fun _ => rfl,
    (sweep_idempotent (Time.mk 63835600400 0) (fun _ => true) (fun _ => false)
        "/srv/files".toList 1
        (Node.dir [] (Time.mk 63835000000 0) true true
          [Node.file "a.txt".toList (Time.mk 63835593200 0) true,
           Node.dir "old".toList (Time.mk 63000000000 0) true true []])
        (fun _ => rfl)).2 _ (by rfl)⟩

/-- C9: a failing entry never aborts the pass.  Every reached regular file judged
expired is handed to `os.Remove` and, when that succeeds, removed and gone from
the tree, wherever failing entries lie among its siblings or in other subtrees;
the entries that fail or lie below a failure are exactly the ones skipped: they
all stay, and every path handed to `os.Remove` belongs to a reached regular file.
A directory holding one unreadable file and one normal expired file ends with the
normal file deleted. -/
theorem sweep_isolation (now : Time) (rm : List Char → Bool) (workDir : List Char)
    (expiryHours : Int) (tree : Node) :
    (∀ e ∈ tree.located workDir true, e.reached = true → e.isDir = false →
      sweeperJudgesExpired now expiryHours e.modTime = true →
      e.path ∈ (cleanupExpiredFiles now rm workDir expiryHours tree).1.attempted ∧
      (rm e.path = true →
        e.path ∈ (cleanupExpiredFiles now rm workDir expiryHours tree).1.removed ∧
        e ∉ locatedOpt workDir true
          (cleanupExpiredFiles now rm workDir expiryHours tree).2)) ∧
    (∀ e ∈ tree.located workDir true, e.reached = false →
      e ∈ locatedOpt workDir true (cleanupExpiredFiles now rm workDir expiryHours tree).2) ∧
    (∀ p ∈ (cleanupExpiredFiles now rm workDir expiryHours tree).1.attempted,
      ∃ e ∈ tree.located workDir true, e.path = p ∧ e.reached = true ∧ e.isDir = false) ∧
    cleanupExpiredFiles (Time.mk 63835600400 0) (fun _ => true) "/srv/files".toList 1
        (Node.dir [] (Time.mk 63835000000 0) true true
          [Node.file "bad.txt".toList (Time.mk 63835593200 0) false,
           Node.file "old.txt".toList (Time.mk 63835593200 0) true])
      = ({ deletedCount := 1, attempted := ["/srv/files/old.txt".toList],
           removed := ["/srv/files/old.txt".toList] },
         some (Node.dir [] (Time.mk 63835000000 0) true true
          [Node.file "bad.txt".toList (Time.mk 63835593200 0) false])) := by
  obtain ⟨hatt, hrem, -, hloc⟩ := cleanup_spec now rm workDir expiryHours tree
  refine ⟨?_, ?_, ?_, by rfl⟩
  · intro e he hreach hfile hexp
    have ha : shouldAttempt now expiryHours e = true := by
      simp [shouldAttempt, hreach, hfile, hexp]
    refine ⟨?_, ?_⟩
    · rw [hatt, List.mem_map]
      exact ⟨e, List.mem_filter.2 ⟨he, ha⟩, rfl⟩
    · intro hok
      have hr : shouldRemove now rm expiryHours e = true := by
        simp [shouldRemove, ha, hok]
      refine ⟨?_, ?_⟩
      · rw [hrem, List.mem_map]
        exact ⟨e, List.mem_filter.2 ⟨he, hr⟩, rfl⟩
      · rw [hloc, List.mem_filter]
        rintro ⟨-, h2⟩
        rw [hr] at h2
        exact Bool.false_ne_true h2
  · intro e he hreach
    rw [hloc, List.mem_filter]
    refine ⟨he, ?_⟩
    simp [shouldRemove, shouldAttempt, hreach]
  · intro p hp
    rw [hatt, List.mem_map] at hp
    obtain ⟨e, he, hpath⟩ := hp
    obtain ⟨hmem, hsat⟩ := List.mem_filter.1 he
    unfold shouldAttempt at hsat
    simp only [Bool.and_eq_true, Bool.not_eq_true'] at hsat
    exact ⟨e, hmem, hpath, hsat.1.1, hsat.1.2⟩

/-! ## Claims on the configuration -/

/-- C10 (counterexample): a config file with `file_expiry_hours = -1`, a non-zero
value, leaves the flag value `2` in force. -/
theorem negative_expiry_not_taken_counterexample :
    (ConfigFile.mk [] [] [] (-1)).FileExpiryHours ≠ 0 ∧
    (applyConfigFile
        (Config.mk "8080".toList "./uploads".toList "./uploads".toList
          "./config.json".toList 2)
        (fun _ => some (ConfigFile.mk [] [] [] (-1)))).FileExpiryHours = 2 := by
  decide

/-- C10 (amended): when the config file loads, each of `Port`, `WorkDir` and
`UploadDir` takes the config-file value when that is non-empty and the flag value
otherwise, `FileExpiryHours` takes the config-file value when that is positive and
the flag value otherwise, and `ConfigFile` keeps the flag value; each field
depends on its own pair of values only. -/
theorem config_precedence (config : Config) (loadConfig : List Char → Option ConfigFile)
    (cfg : ConfigFile) (hname : config.ConfigFile ≠ [])
    (hload : loadConfig config.ConfigFile = some cfg) :
    applyConfigFile config loadConfig =
      { Port := if cfg.Port ≠ [] then cfg.Port else config.Port
        WorkDir := if cfg.WorkDir ≠ [] then cfg.WorkDir else config.WorkDir
        UploadDir := if cfg.UploadDir ≠ [] then cfg.UploadDir else config.UploadDir
        ConfigFile := config.ConfigFile
        FileExpiryHours :=
          if cfg.FileExpiryHours > 0 then cfg.FileExpiryHours else config.FileExpiryHours } := by
  unfold applyConfigFile mergeConfigFile
  rw [if_pos hname, hload]
  by_cases h1 : cfg.Port = [] <;> by_cases h2 : cfg.WorkDir = [] <;>
    by_cases h3 : cfg.UploadDir = [] <;> by_cases h4 : cfg.FileExpiryHours > 0 <;>
    simp [h1, h2, h3, h4]

theorem config_precedence_witness :
    ("./config.json".toList ≠ []) ∧
    applyConfigFile
        (Config.mk "8080".toList "./uploads".toList "./uploads".toList
          "./config.json".toList 2)
        (fun _ => some (ConfigFile.mk "9090".toList [] "/data/up".toList 0))
      = Config.mk "9090".toList "./uploads".toList "/data/up".toList
          "./config.json".toList 2 :=
  ⟨by decide,
    config_precedence
      (Config.mk "8080".toList "./uploads".toList "./uploads".toList
          "./config.json".toList 2)
      (fun _ => some (ConfigFile.mk "9090".toList [] "/data/up".toList 0))
      (ConfigFile.mk "9090".toList [] "/data/up".toList 0) (by decide) rfl⟩

/-! ## `filepath.Clean` read element by element -/

theorem copyElem_length (l out : List Char) : (copyElem l out).1.length ≤ l.length := by
  induction l generalizing out with
  | nil => simp [copyElem]
  | cons c rest ih =>
    unfold copyElem
    split_ifs
    · simp
    · have := ih (out ++ [c])
      simp only [List.length_cons]
      omega

theorem copyElem_append (a b out : List Char) :
    copyElem (a ++ '/' :: b) out
      = ((copyElem a out).1 ++ '/' :: b, (copyElem a out).2) := by
  induction a generalizing out with
  | nil => simp [copyElem]
  | cons c rest ih =>
    simp only [List.cons_append, copyElem]
    split_ifs
    · simp
    · exact ih (out ++ [c])

theorem cleanStep_length (rooted : Bool) (c : Char) (rest out : List Char) (dd : Nat) :
    (cleanStep rooted c rest out dd).1.length ≤ rest.length := by
  unfold cleanStep
  split_ifs
  all_goals first
    | exact Nat.le_refl _
    | (simp only [List.length_tail]; omega)
    | skip
  all_goals
    simp only
    unfold copyElem
    rw [if_neg ‹_›]
    exact copyElem_length _ _

/-- Reading on from a separator: an iteration of the loop does not look past the
separator that ends the element it is reading. -/
theorem cleanStep_append (rooted : Bool) (c : Char) (rest b out : List Char) (dd : Nat) :
    cleanStep rooted c (rest ++ '/' :: b) out dd
      = ((cleanStep rooted c rest out dd).1 ++ '/' :: b,
         (cleanStep rooted c rest out dd).2.1, (cleanStep rooted c rest out dd).2.2) := by
  have hcopy : ∀ o, copyElem (c :: (rest ++ '/' :: b)) o
      = ((copyElem (c :: rest) o).1 ++ '/' :: b, (copyElem (c :: rest) o).2) :=
    fun o => copyElem_append (c :: rest) b o
  have h1 : (rest ++ '/' :: b = [] ∨ (rest ++ '/' :: b).head? = some '/') ↔
      (rest = [] ∨ rest.head? = some '/') := by
    cases rest <;> simp
  have h2 : ((rest ++ '/' :: b).head? = some '.' ∧
      ((rest ++ '/' :: b).tail = [] ∨ (rest ++ '/' :: b).tail.head? = some '/')) ↔
      (rest.head? = some '.' ∧ (rest.tail = [] ∨ rest.tail.head? = some '/')) := by
    rcases rest with _ | ⟨r1, _ | ⟨r2, rest2⟩⟩ <;> simp
  have h3 : rest.head? = some '.' → (rest ++ '/' :: b).tail = rest.tail ++ '/' :: b := by
    cases rest <;> simp
  unfold cleanStep
  simp only [h1, h2, hcopy]
  split_ifs with c1 c2 c3 <;> first | rfl | rw [h3 c3.2.1]

theorem cleanStep_rooted_dotdot (c : Char) (rest out : List Char) (dd : Nat) :
    (cleanStep true c rest out dd).2.2 = dd := by
  unfold cleanStep
  split_ifs <;> first | rfl | simp_all

theorem cleanLoop_nil (rooted : Bool) (fuel : Nat) (out : List Char) (dd : Nat) :
    cleanLoop rooted fuel [] out dd = out := by
  cases fuel <;> rfl

theorem cleanLoop_cons (rooted : Bool) (fuel : Nat) (c : Char) (rest out : List Char)
    (dd : Nat) :
    cleanLoop rooted (fuel + 1) (c :: rest) out dd
      = cleanLoop rooted fuel (cleanStep rooted c rest out dd).1
          (cleanStep rooted c rest out dd).2.1 (cleanStep rooted c rest out dd).2.2 := rfl

/-- Fuel beyond the length of the unread path changes nothing: the loop has
finished by then. -/
theorem cleanLoop_fuel (rooted : Bool) (extra : Nat) :
    ∀ (fuel : Nat) (path out : List Char) (dd : Nat), path.length ≤ fuel →
      cleanLoop rooted (fuel + extra) path out dd = cleanLoop rooted fuel path out dd := by
  intro fuel
  induction fuel with
  | zero =>
    intro path out dd hlen
    have hnil : path = [] := List.length_eq_zero.1 (Nat.le_zero.1 hlen)
    subst hnil
    rw [cleanLoop_nil, cleanLoop_nil]
  | succ fuel ih =>
    intro path out dd hlen
    cases path with
    | nil => rw [cleanLoop_nil, cleanLoop_nil]
    | cons c rest =>
      have hfuel : fuel + 1 + extra = (fuel + extra) + 1 := by omega
      rw [hfuel, cleanLoop_cons, cleanLoop_cons]
      apply ih
      have := cleanStep_length rooted c rest out dd
      simp only [List.length_cons] at hlen
      omega

/-- Cleaning a rooted path `a/b` is cleaning `a` and then reading on through `/b`
with the buffer `a` left. -/
theorem cleanLoop_split (b : List Char) :
    ∀ (fuel : Nat) (a out : List Char) (dd : Nat), a.length ≤ fuel →
      cleanLoop true (fuel + (b.length + 1)) (a ++ '/' :: b) out dd
        = cleanLoop true (b.length + 1) ('/' :: b) (cleanLoop true fuel a out dd) dd := by
  intro fuel
  induction fuel with
  | zero =>
    intro a out dd hlen
    have hnil : a = [] := List.length_eq_zero.1 (Nat.le_zero.1 hlen)
    subst hnil
    rw [cleanLoop_nil, List.nil_append, Nat.zero_add]
  | succ fuel ih =>
    intro a out dd hlen
    cases a with
    | nil =>
      have h := cleanLoop_fuel true (fuel + 1) (b.length + 1) ('/' :: b) out dd (by simp)
      have hfuel : fuel + 1 + (b.length + 1) = b.length + 1 + (fuel + 1) := by omega
      rw [cleanLoop_nil, List.nil_append, hfuel, h]
    | cons c rest =>
      have hfuel : fuel + 1 + (b.length + 1) = (fuel + (b.length + 1)) + 1 := by omega
      have hstep := cleanStep_length true c rest out dd
      have hdd := cleanStep_rooted_dotdot c rest out dd
      simp only [List.length_cons] at hlen
      rw [hfuel, List.cons_append, cleanLoop_cons true _ c (rest ++ '/' :: b) out dd,
        cleanLoop_cons true fuel c rest out dd, cleanStep_append]
      simp only
      rw [ih _ _ _ (by omega), hdd]

/-! ## Paths without `..` only descend -/

theorem copyElem_eq (l out : List Char) :
    copyElem l out
      = (l.dropWhile (fun c => !decide (c = '/')),
         out ++ l.takeWhile (fun c => !decide (c = '/'))) := by
  induction l generalizing out with
  | nil => simp [copyElem]
  | cons c rest ih =>
    unfold copyElem
    by_cases hc : c = '/'
    · simp [hc]
    · rw [if_neg hc, ih]
      simp [hc]

theorem stringsContains_cons (c : Char) (rest : List Char)
    (h : stringsContains (c :: rest) ['.', '.'] = false) :
    ¬ (c = '.' ∧ rest.head? = some '.') ∧ stringsContains rest ['.', '.'] = false := by
  unfold stringsContains at h
  rw [Bool.or_eq_false_iff] at h
  refine ⟨?_, h.2⟩
  rintro ⟨h1, h2⟩
  cases rest with
  | nil => simp at h2
  | cons r rest2 =>
    simp only [List.head?_cons, Option.some.injEq] at h2
    subst h1 h2
    simp [List.isPrefixOf] at h

theorem stringsContains_dropWhile (p : Char → Bool) (sub : List Char) (l : List Char)
    (h : stringsContains l sub = false) :
    stringsContains (l.dropWhile p) sub = false := by
  induction l with
  | nil => simpa using h
  | cons c rest ih =>
    have hrest : stringsContains rest sub = false := by
      unfold stringsContains at h
      rw [Bool.or_eq_false_iff] at h
      exact h.2
    rw [List.dropWhile_cons]
    split_ifs
    · exact ih hrest
    · exact h

/-- An iteration of the loop on a rooted path without `..`: the buffer stays as
it is or gains one proper path element. -/
theorem cleanStep_descends (c : Char) (rest out : List Char) (dd : Nat)
    (hout : out.head? = some '/')
    (hnd : stringsContains (c :: rest) ['.', '.'] = false) :
    stringsContains (cleanStep true c rest out dd).1 ['.', '.'] = false ∧
    ((cleanStep true c rest out dd).2.1 = out ∨
      ∃ e, IsName e ∧ (cleanStep true c rest out dd).2.1
        = (if out = ['/'] then out ++ e else out ++ '/' :: e)) := by
  obtain ⟨hn1, hn2⟩ := stringsContains_cons c rest hnd
  unfold cleanStep
  by_cases c1 : c = '/'
  · rw [if_pos c1]; exact ⟨hn2, Or.inl rfl⟩
  rw [if_neg c1]
  by_cases c2 : c = '.' ∧ (rest = [] ∨ rest.head? = some '/')
  · rw [if_pos c2]; exact ⟨hn2, Or.inl rfl⟩
  rw [if_neg c2]
  have c3 : ¬ (c = '.' ∧ rest.head? = some '.' ∧
      (rest.tail = [] ∨ rest.tail.head? = some '/')) := fun h => hn1 ⟨h.1, h.2.1⟩
  rw [if_neg c3]
  simp only [copyElem_eq]
  refine ⟨stringsContains_dropWhile _ _ _ hnd, Or.inr ⟨(c :: rest).takeWhile
    (fun c => !decide (c = '/')), ⟨?_, ?_, ?_, ?_⟩, ?_⟩⟩
  · simp [List.takeWhile_cons, c1]
  · intro hmem
    have := List.mem_takeWhile_imp hmem
    simp at this
  · intro he
    rw [List.takeWhile_cons] at he
    simp only [c1, decide_False, Bool.not_false, if_true, List.cons.injEq] at he
    apply c2
    refine ⟨he.1, ?_⟩
    cases rest with
    | nil => exact Or.inl rfl
    | cons r rest2 =>
      right
      have h2 := he.2
      rw [List.takeWhile_cons] at h2
      by_cases hr : r = '/'
      · simp [hr]
      · simp [hr] at h2
  · intro he
    rw [List.takeWhile_cons] at he
    simp only [c1, decide_False, Bool.not_false, if_true, List.cons.injEq] at he
    apply hn1
    refine ⟨he.1, ?_⟩
    cases rest with
    | nil => simp at he
    | cons r rest2 =>
      have h2 := he.2
      rw [List.takeWhile_cons] at h2
      by_cases hr : r = '/'
      · simp [hr] at h2
      · simp only [hr, decide_False, Bool.not_false, if_true, List.cons.injEq] at h2
        simp [h2.1]
  · by_cases hlen : out.length = 1
    · have hone : out = ['/'] := by
        cases out with
        | nil => simp at hlen
        | cons o os =>
          simp only [List.head?_cons, Option.some.injEq] at hout
          simp only [List.length_cons, Nat.add_left_eq_self, List.length_eq_zero] at hlen
          rw [hout, hlen]
      simp [hone]
    · have hne : out ≠ ['/'] := by
        intro h
        rw [h] at hlen
        exact hlen rfl
      simp [hlen, hne]

theorem descend_head (dir : List Char) (names : List (List Char))
    (h : dir.head? = some '/') : (descend dir names).head? = some '/' := by
  induction names generalizing dir with
  | nil => exact h
  | cons e es ih =>
    unfold descend
    apply ih
    cases dir with
    | nil => simp at h
    | cons d ds =>
      simp only [List.head?_cons, Option.some.injEq] at h
      split_ifs <;> simp [h]

/-- The loop on a rooted path without `..`: the buffer it ends with is reached from
the buffer it starts with by descending through proper path elements. -/
theorem cleanLoop_descends :
    ∀ (fuel : Nat) (path out : List Char) (dd : Nat), out.head? = some '/' →
      stringsContains path ['.', '.'] = false →
      ∃ names : List (List Char), (∀ e ∈ names, IsName e) ∧
        cleanLoop true fuel path out dd = descend out names := by
  intro fuel
  induction fuel with
  | zero =>
    intro path out dd _ _
    exact ⟨[], by simp, rfl⟩
  | succ fuel ih =>
    intro path out dd hout hnd
    cases path with
    | nil => exact ⟨[], by simp, rfl⟩
    | cons c rest =>
      obtain ⟨h1, h2⟩ := cleanStep_descends c rest out dd hout hnd
      rw [cleanLoop_cons]
      rcases h2 with heq | ⟨e, he, heq⟩
      · rw [heq]
        exact ih _ _ _ hout h1
      · rw [heq]
        have hout2 : (if out = ['/'] then out ++ e else out ++ '/' :: e).head? = some '/' :=
          descend_head out [e] hout
        obtain ⟨names, hn, hres⟩ := ih (cleanStep true c rest out dd).1
          (if out = ['/'] then out ++ e else out ++ '/' :: e)
          (cleanStep true c rest out dd).2.2 hout2 h1
        refine ⟨e :: names, ?_, ?_⟩
        · intro x hx
          rcases List.mem_cons.1 hx with hx | hx
          · rw [hx]; exact he
          · exact hn x hx
        · rw [hres]
          rfl

theorem backLoop_ge (out : List Char) (dd : Nat) :
    ∀ w : Nat, dd ≤ w → dd ≤ backLoop out dd w := by
  intro w
  induction w with
  | zero => intro h; simpa [backLoop] using h
  | succ w ih =>
    intro h
    unfold backLoop
    split_ifs with hc
    · exact ih (by omega)
    · exact h

theorem take_head (out : List Char) (k : Nat) (hk : 1 ≤ k) (h : out.head? = some '/') :
    (out.take k).head? = some '/' := by
  cases out with
  | nil => simp at h
  | cons o os =>
    cases k with
    | zero => omega
    | succ k => simpa using h

theorem append_head (out extra : List Char) (h : out.head? = some '/') :
    (out ++ extra).head? = some '/' := by
  cases out with
  | nil => simp at h
  | cons o os => simpa using h

/-- On a rooted path the buffer always starts with the separator. -/
theorem cleanStep_head (c : Char) (rest out : List Char) (dd : Nat) (hdd : 1 ≤ dd)
    (hout : out.head? = some '/') :
    (cleanStep true c rest out dd).2.1.head? = some '/' := by
  unfold cleanStep
  by_cases c1 : c = '/'
  · rw [if_pos c1]; exact hout
  rw [if_neg c1]
  by_cases c2 : c = '.' ∧ (rest = [] ∨ rest.head? = some '/')
  · rw [if_pos c2]; exact hout
  rw [if_neg c2]
  by_cases c3 : c = '.' ∧ rest.head? = some '.' ∧
      (rest.tail = [] ∨ rest.tail.head? = some '/')
  · rw [if_pos c3]
    by_cases c4 : out.length > dd
    · rw [if_pos c4]
      apply take_head _ _ _ hout
      have := backLoop_ge out dd (out.length - 1) (by omega)
      omega
    · rw [if_neg c4]
      exact hout
  · rw [if_neg c3]
    simp only [copyElem_eq]
    split_ifs
    · rw [List.append_assoc]; exact append_head _ _ hout
    · exact append_head _ _ hout

theorem cleanLoop_head :
    ∀ (fuel : Nat) (path out : List Char) (dd : Nat), 1 ≤ dd → out.head? = some '/' →
      (cleanLoop true fuel path out dd).head? = some '/' := by
  intro fuel
  induction fuel with
  | zero => intro path out dd _ h; exact h
  | succ fuel ih =>
    intro path out dd hdd h
    cases path with
    | nil => exact h
    | cons c rest =>
      rw [cleanLoop_cons]
      apply ih
      · rw [cleanStep_rooted_dotdot]; exact hdd
      · exact cleanStep_head c rest out dd hdd h

/-- Cleaning a rooted path gives the buffer the loop ends with. -/
theorem Clean_rooted (wt : List Char) :
    Clean ('/' :: wt) = cleanLoop true wt.length wt ['/'] 1 := by
  have hhead := cleanLoop_head wt.length wt ['/'] 1 (Nat.le_refl _) rfl
  unfold Clean
  simp only [List.cons_ne_nil, if_false, List.head?_cons, decide_True, if_true,
    List.tail_cons, List.length_cons]
  rw [cleanLoop_fuel true 1 wt.length wt ['/'] 1 (Nat.le_refl _)]
  have hne : (cleanLoop true wt.length wt ['/'] 1).length ≠ 0 := by
    intro hz
    rw [List.length_eq_zero.1 hz] at hhead
    simp at hhead
  rw [if_neg hne]

/-- Joining an absolute directory with a path that contains no `..` stays
lexically within the cleaned directory. -/
theorem Join_within (workDir p : List Char) (hroot : workDir.head? = some '/')
    (hnd : stringsContains p ['.', '.'] = false) :
    LexicallyWithin (Clean workDir) (Join [workDir, p]) := by
  cases workDir with
  | nil => simp at hroot
  | cons w wt =>
    simp only [List.head?_cons, Option.some.injEq] at hroot
    subst hroot
    have hhead := cleanLoop_head wt.length wt ['/'] 1 (Nat.le_refl _) rfl
    have hnd2 : stringsContains ('/' :: p) ['.', '.'] = false := by
      unfold stringsContains
      rw [hnd]
      rfl
    obtain ⟨names, hn, hres⟩ := cleanLoop_descends (p.length + 1) ('/' :: p)
      (cleanLoop true wt.length wt ['/'] 1) 1 hhead hnd2
    refine ⟨names, hn, ?_⟩
    have hjoin : Join ['/' :: wt, p] = Clean ('/' :: (wt ++ '/' :: p)) := by
      simp [Join, stringsJoin]
    have hlen : (wt ++ '/' :: p).length = wt.length + (p.length + 1) := by simp
    rw [hjoin, Clean_rooted, Clean_rooted, hlen,
      cleanLoop_split p wt.length wt ['/'] 1 (Nat.le_refl _), hres]

/-! ## Claims on the request path -/

theorem ServeFile_rejects_iff (openFile : List Char → OpenResult)
    (urlPath name : List Char) :
    ServeFile openFile urlPath name = Response.error 400 ↔ containsDotDot urlPath = true := by
  unfold ServeFile
  by_cases h : containsDotDot urlPath = true
  · simp [h]
  · simp only [h, Bool.false_eq_true, if_false, iff_false]
    split_ifs
    · simp
    · cases openFile name <;> simp [toHTTPError]

theorem ServeFile_file (openFile : List Char → OpenResult) (urlPath name full : List Char)
    (h : ServeFile openFile urlPath name = Response.file full) :
    full = name ∧ containsDotDot urlPath = false := by
  unfold ServeFile at h
  by_cases hd : containsDotDot urlPath = true
  · simp [hd] at h
  · rw [Bool.not_eq_true] at hd
    refine ⟨?_, hd⟩
    simp only [hd, Bool.false_eq_true, if_false] at h
    split_ifs at h
    cases ho : openFile name <;> rw [ho] at h <;>
      simp only [Response.file.injEq, reduceCtorEq] at h
    exact h.symm

theorem serveFileBrowser_rejects_iff (stat : List Char → StatResult)
    (openFile : List Char → OpenResult) (urlPath workDir : List Char) :
    serveFileBrowser stat openFile urlPath workDir = Response.error 400 ↔
      (stringsContains (Clean urlPath) ['.', '.'] = true ∨
        (stat (Join [workDir, Clean urlPath]) = StatResult.isFile ∧
          containsDotDot urlPath = true)) := by
  unfold serveFileBrowser
  by_cases h : stringsContains (Clean urlPath) ['.', '.'] = true
  · simp [h]
  · simp only [h, Bool.false_eq_true, if_false, false_or]
    cases hs : stat (Join [workDir, Clean urlPath])
    · simp
    · simp
    · simp
    · simp only [true_and]
      exact ServeFile_rejects_iff openFile urlPath _

theorem serveFileBrowser_accepts (stat : List Char → StatResult)
    (openFile : List Char → OpenResult) (urlPath workDir : List Char)
    (h : stringsContains (Clean urlPath) ['.', '.'] = false) :
    serveFileBrowser stat openFile urlPath workDir =
      match stat (Join [workDir, Clean urlPath]) with
      | StatResult.notExist => Response.error 404
      | StatResult.otherError => Response.error 500
      | StatResult.isDir => Response.directory (Join [workDir, Clean urlPath]) (Clean urlPath)
      | StatResult.isFile => ServeFile openFile urlPath (Join [workDir, Clean urlPath]) := by
  unfold serveFileBrowser
  simp [h]

/-- A parent segment at the root is dropped by `Clean`. -/
theorem Clean_root_dotdot (p : List Char) :
    Clean ('/' :: '.' :: '.' :: '/' :: p) = Clean ('/' :: p) := by
  have hstep : cleanStep true '.' ('.' :: '/' :: p) ['/'] 1 = ('/' :: p, ['/'], 1) := by
    unfold cleanStep
    simp
  have hsep : cleanStep true '/' p ['/'] 1 = (p, ['/'], 1) := by
    unfold cleanStep
    simp
  rw [Clean_rooted, Clean_rooted]
  have hlen : ('.' :: '.' :: '/' :: p).length = (p.length + 1) + 1 + 1 := by simp
  rw [hlen, cleanLoop_cons, hstep]
  simp only
  rw [cleanLoop_cons, hsep]
  simp only
  exact cleanLoop_fuel true 1 p.length p ['/'] 1 (Nat.le_refl _)

/-- C3 (counterexample): the request path `/../../etc/passwd` is cleaned to
`/etc/passwd` and resolved to `/srv/files/etc/passwd`; when nothing exists there the
answer is 404, not 400, and when a directory exists there its listing is served. -/
theorem traversal_not_rejected_counterexample :
    Clean "/../../etc/passwd".toList = "/etc/passwd".toList ∧
    serveFileBrowser (fun _ => StatResult.notExist) (fun _ => OpenResult.ok)
        "/../../etc/passwd".toList "/srv/files".toList
      = Response.error 404 ∧
    serveFileBrowser (fun _ => StatResult.isDir) (fun _ => OpenResult.ok)
        "/../../etc/passwd".toList "/srv/files".toList
      = Response.directory "/srv/files/etc/passwd".toList "/etc/passwd".toList := by
  decide

/-- C3 (amended): `serveFileBrowser` answers with 400 exactly when the request path
still contains `..` after `filepath.Clean` (as the relative path `../../etc/passwd`
does), or when it resolves to a regular file and has a `..` element, which
`http.ServeFile` rejects.  A request path with a `..` element is therefore never
answered from a file; when its cleaned form has no `..` it is resolved to
`filepath.Join(workDir, filepath.Clean(path))` and answered 404 when nothing exists
there, 500 on another stat error, with the listing when a directory is there and
400 when a regular file is there.  Unless a regular file is there, a parent segment
at the root is dropped: the request for `/../p` is answered as the request for `/p`
is. -/
theorem traversal_rejection (stat : List Char → StatResult)
    (openFile : List Char → OpenResult) (urlPath workDir : List Char) :
    (serveFileBrowser stat openFile urlPath workDir = Response.error 400 ↔
      (stringsContains (Clean urlPath) ['.', '.'] = true ∨
        (stat (Join [workDir, Clean urlPath]) = StatResult.isFile ∧
          containsDotDot urlPath = true))) ∧
    (containsDotDot urlPath = true →
      ∀ full, serveFileBrowser stat openFile urlPath workDir ≠ Response.file full) ∧
    (containsDotDot urlPath = true → stringsContains (Clean urlPath) ['.', '.'] = false →
      serveFileBrowser stat openFile urlPath workDir =
        match stat (Join [workDir, Clean urlPath]) with
        | StatResult.notExist => Response.error 404
        | StatResult.otherError => Response.error 500
        | StatResult.isDir =>
          Response.directory (Join [workDir, Clean urlPath]) (Clean urlPath)
        | StatResult.isFile => Response.error 400) ∧
    serveFileBrowser stat openFile "../../etc/passwd".toList workDir = Response.error 400 ∧
    (stat (Join [workDir, Clean ('/' :: urlPath)]) ≠ StatResult.isFile →
      serveFileBrowser stat openFile ('/' :: '.' :: '.' :: '/' :: urlPath) workDir
        = serveFileBrowser stat openFile ('/' :: urlPath) workDir) := by
  refine ⟨serveFileBrowser_rejects_iff stat openFile urlPath workDir, ?_, ?_, ?_, ?_⟩
  · intro hdd full hfull
    cases hc : stringsContains (Clean urlPath) ['.', '.'] with
    | true =>
      have h400 := (serveFileBrowser_rejects_iff stat openFile urlPath workDir).2 (Or.inl hc)
      rw [h400] at hfull
      exact Response.noConfusion hfull
    | false =>
      rw [serveFileBrowser_accepts stat openFile urlPath workDir hc] at hfull
      cases hs : stat (Join [workDir, Clean urlPath]) <;> rw [hs] at hfull <;>
        simp only [reduceCtorEq] at hfull
      have := (ServeFile_file openFile urlPath _ full hfull).2
      rw [hdd] at this
      exact Bool.noConfusion this
  · intro hdd hc
    rw [serveFileBrowser_accepts stat openFile urlPath workDir hc]
    cases hs : stat (Join [workDir, Clean urlPath]) <;> simp only
    exact (ServeFile_rejects_iff openFile urlPath _).2 hdd
  · rw [serveFileBrowser_rejects_iff]
    left
    decide
  · intro hnf
    unfold serveFileBrowser
    rw [Clean_root_dotdot]
    simp only
    by_cases hc : stringsContains (Clean ('/' :: urlPath)) ['.', '.'] = true
    · rw [if_pos hc, if_pos hc]
    · rw [if_neg hc, if_neg hc]
      cases hs : stat (Join [workDir, Clean ('/' :: urlPath)]) <;> simp only
      exact absurd hs hnf

/-- C4: for every absolute `workDir` and every request path that `serveFileBrowser`
does not answer with 400, the full path it stats and serves,
`filepath.Join(workDir, filepath.Clean(path))`, is the cleaned `workDir` itself or is
reached from it by descending through proper path elements; for a `workDir` as
`filepath.Abs` returns it, which is clean, that is `workDir` itself or a descendant
of `workDir`.  The directory listed and the file answered from are at that path. -/
theorem served_path_within_workDir (stat : List Char → StatResult)
    (openFile : List Char → OpenResult) (urlPath workDir : List Char)
    (habs : workDir.head? = some '/')
    (hnot : serveFileBrowser stat openFile urlPath workDir ≠ Response.error 400) :
    LexicallyWithin (Clean workDir) (Join [workDir, Clean urlPath]) ∧
    (Clean workDir = workDir → LexicallyWithin workDir (Join [workDir, Clean urlPath])) ∧
    (∀ full, serveFileBrowser stat openFile urlPath workDir = Response.file full →
      full = Join [workDir, Clean urlPath]) ∧
    (∀ dirPath requestPath,
      serveFileBrowser stat openFile urlPath workDir
        = Response.directory dirPath requestPath →
      dirPath = Join [workDir, Clean urlPath]) := by
  have hnd : stringsContains (Clean urlPath) ['.', '.'] = false := by
    cases h : stringsContains (Clean urlPath) ['.', '.'] with
    | false => rfl
    | true =>
      exact absurd
        ((serveFileBrowser_rejects_iff stat openFile urlPath workDir).2 (Or.inl h)) hnot
  have hwithin := Join_within workDir (Clean urlPath) habs hnd
  have hacc := serveFileBrowser_accepts stat openFile urlPath workDir hnd
  refine ⟨hwithin, ?_, ?_, ?_⟩
  · intro hclean
    rw [hclean] at hwithin
    exact hwithin
  · intro full hfull
    rw [hacc] at hfull
    cases hs : stat (Join [workDir, Clean urlPath]) <;> rw [hs] at hfull <;>
      simp only [reduceCtorEq] at hfull
    exact (ServeFile_file openFile urlPath _ full hfull).1
  · intro dirPath requestPath hdir
    rw [hacc] at hdir
    cases hs : stat (Join [workDir, Clean urlPath]) <;> rw [hs] at hdir <;>
      simp only [Response.directory.injEq, reduceCtorEq] at hdir
    · exact hdir.1.symm
    · exfalso
      unfold ServeFile at hdir
      split_ifs at hdir
      cases ho : openFile (Join [workDir, Clean urlPath]) <;> rw [ho] at hdir <;>
        simp only [reduceCtorEq] at hdir

theorem served_path_within_workDir_witness :
    ("/srv/files".toList).head? = some '/' ∧
    serveFileBrowser (fun _ => StatResult.isDir) (fun _ => OpenResult.ok) "/../d".toList
        "/srv/files".toList
      = Response.directory "/srv/files/d".toList "/d".toList ∧
    Clean "/srv/files".toList = "/srv/files".toList ∧
    LexicallyWithin "/srv/files".toList
      (Join ["/srv/files".toList, Clean "/../d".toList]) :=
  ⟨by decide, by decide, by decide,
    (served_path_within_workDir (fun _ => StatResult.isDir) (fun _ => OpenResult.ok)
      "/../d".toList "/srv/files".toList (by decide) (by decide)).2.1 (by decide)⟩

end FileServer
